import Mathlib

set_option autoImplicit false

/-!
Verification of the BitBake parsing core (`bb/parse`): the file resolver and
its dependency marking (`resolve_file`, `mark_dependency`), the resolver's
bounded LRU result cache, the mtime cache, the recipe feeder's `addtask`
handling, inherit deduplication, the per-file statement cache, the
self-include guard of `include_single_file`, and the metrics sidecar.

The Python modules are shallowly embedded: module-level mutable state is
passed explicitly, `os` filesystem access is a pure function parameter, and
where a behaviour depends on an I/O outcome the outcome is an explicit
parameter or event.  `bb.utils.which` is not part of the sources and is
modelled from the specification (see its doc comment).
-/

deriving instance DecidableEq for Except

/-! ## Character and string helpers (Python string primitives) -/

/-- Boolean prefix test on character lists. -/
def prefixEq : List Char → List Char → Bool
  | [], _ => true
  | _ :: _, [] => false
  | a :: as, b :: bs => decide (a = b) && prefixEq as bs

/-- Python `s.startswith(pre)`. -/
def sStarts (s pre : String) : Bool := prefixEq pre.data s.data

/-- Python `s.endswith(suf)`. -/
def sEnds (s suf : String) : Bool := prefixEq suf.data.reverse s.data.reverse

/-- Python `s[n:]`. -/
def sDrop (s : String) (n : Nat) : String := String.mk (s.data.drop n)

/-- Splitter for `str.split(":")`, which keeps empty fields. -/
def splitChGo : List Char → List Char → List String
  | [], cur => [String.mk cur.reverse]
  | c :: t, cur =>
      if c = ':' then String.mk cur.reverse :: splitChGo t []
      else splitChGo t (c :: cur)

/-- Python `s.split(":")`. -/
def splitColon (s : String) : List String := splitChGo s.data []

/-- Python `os.path.isabs` on POSIX: leading slash. -/
def isabs (f : String) : Bool := sStarts f "/"

/-- Python `os.path.join(dir, name)` for a relative `name`. -/
def pathJoin (dir name : String) : String :=
  if dir = "" then name
  else if sEnds dir "/" then dir ++ name
  else dir ++ "/" ++ name

/-- Make a path absolute against `cwd` (the `os.path.abspath` step of the
resolver, without normalisation, which no claim depends on). -/
def mkAbs (cwd p : String) : String := if isabs p then p else cwd ++ "/" ++ p

/-! ## Filesystem model

A pure snapshot of the filesystem: `stat` gives the metadata of an existing
path (`none` means `os.stat` raises `OSError`), `ls` gives the `os.scandir`
listing of a directory (`none` means `scandir` raises `OSError`). -/

/-- Kind of an existing filesystem object (`os.path.isfile` distinguishes
regular files from everything else). -/
inductive FKind where
  | regular
  | directory
deriving DecidableEq

/-- The `(st_mtime_ns, st_size, st_ino)` triple stored by the mtime cache. -/
structure Stamp where
  mtimeNs : Nat
  size : Nat
  ino : Nat
deriving DecidableEq

/-- Result of a successful `os.stat`. -/
structure FMeta where
  kind : FKind
  stamp : Stamp
deriving DecidableEq

/-- The filesystem as seen by the parser during one session. -/
structure FsT where
  stat : String → Option FMeta
  ls : String → Option (List String)

/-- Python `os.path.exists`. -/
def pathExists (fs : FsT) (f : String) : Bool := (fs.stat f).isSome

/-- Python `os.path.isfile`. -/
def isRegular (fs : FsT) (f : String) : Bool :=
  match fs.stat f with
  | some m => decide (m.kind = FKind.regular)
  | none => false

/-! ## Mtime cache (`bb.parse.__mtime_cache`, `cached_mtime*`) -/

/-- A cached mtime value as it appears inside `__depends` entries:
`cached_mtime_noerror` yields the integer `0` when `os.stat` fails. -/
inductive MStamp where
  | zero
  | st (s : Stamp)
deriving DecidableEq

/-- Association-list lookup (Python `dict` access; keys are unique in every
state the embedded code constructs). -/
def assocLookup {κ υ : Type} [DecidableEq κ] : List (κ × υ) → κ → Option υ
  | [], _ => none
  | p :: t, k => if p.1 = k then some p.2 else assocLookup t k

/-- Python `dict` assignment `l[k] = v`. -/
def assocPut {κ υ : Type} [DecidableEq κ] (l : List (κ × υ)) (k : κ) (v : υ) : List (κ × υ) :=
  if (assocLookup l k).isSome then l.map (fun p => if p.1 = k then (k, v) else p)
  else l ++ [(k, v)]

/-- Python `dict.pop(k, None)`. -/
def assocDrop {κ υ : Type} [DecidableEq κ] (l : List (κ × υ)) (k : κ) : List (κ × υ) :=
  l.filter (fun p => !(decide (p.1 = k)))

/-- `deque.remove(k)` wrapped in `try/except ValueError`: drop the first
occurrence, no-op when absent. -/
def keyErase {κ : Type} [DecidableEq κ] : List κ → κ → List κ
  | [], _ => []
  | a :: t, k => if a = k then t else a :: keyErase t k

/-- `bb.parse.cached_mtime_noerror`: consult the cache, stat and store on a
miss, and collapse a stat failure to the sentinel `0` without caching it. -/
def cached_mtime_noerror (fs : FsT) (f : String) (mc : List (String × Stamp)) :
    MStamp × List (String × Stamp) :=
  match assocLookup mc f with
  | some s => (MStamp.st s, mc)
  | none =>
    match fs.stat f with
    | some m => (MStamp.st m.stamp, mc ++ [(f, m.stamp)])
    | none => (MStamp.zero, mc)

/-- `bb.parse.cached_mtime`: consult the cache and only stat (and store) when
the path has no entry; a stat failure propagates (`Except.error`).  The third
component is a ghost observation: whether this call performed an `os.stat`. -/
def cached_mtime (fs : FsT) (f : String) (mc : List (String × Stamp)) :
    Except Unit Stamp × List (String × Stamp) × Bool :=
  match assocLookup mc f with
  | some s => (Except.ok s, mc, false)
  | none =>
    match fs.stat f with
    | some m => (Except.ok m.stamp, mc ++ [(f, m.stamp)], true)
    | none => (Except.error (), mc, true)

/-! ## Datastore and dependency marking -/

/-- The slice of the datastore the resolver touches: the `__depends` record
and the `BBPATH` variable. -/
structure DStore where
  depends : List (String × MStamp)
  bbpath : String
deriving DecidableEq

/-- The name under which `mark_dependency` records a path: a leading `./` is
rewritten to `{cwd}/{remainder}`. -/
def markedName (cwd f : String) : String :=
  if sStarts f "./" then cwd ++ "/" ++ sDrop f 2 else f

/-- `bb.parse.mark_dependency`: rewrite a leading `./`, stamp the rewritten
path with `cached_mtime_noerror`, and append the `(path, stamp)` pair to
`__depends` unless an equal pair is already present. -/
def mark_dependency (fs : FsT) (cwd f : String) (mc : List (String × Stamp)) (d : DStore) :
    List (String × Stamp) × DStore :=
  let n := markedName cwd f
  let r := cached_mtime_noerror fs n mc
  let s := (n, r.1)
  if s ∈ d.depends then (r.2, d)
  else (r.2, { d with depends := d.depends ++ [s] })

/-- `bb.parse.check_dependency`: stamp `f` and test membership of the pair in
`__depends` (no `./` rewrite here). -/
def check_dependency (fs : FsT) (f : String) (mc : List (String × Stamp)) (d : DStore) :
    Bool × List (String × Stamp) :=
  let r := cached_mtime_noerror fs f mc
  (decide ((f, r.1) ∈ d.depends), r.2)

/-- The `for af in attempts: mark_dependency(d, af)` loop of the resolver. -/
def markAll (fs : FsT) (cwd : String) (afs : List String)
    (mc : List (String × Stamp)) (d : DStore) : List (String × Stamp) × DStore :=
  afs.foldl (fun acc af => mark_dependency fs cwd af acc.1 acc.2) (mc, d)

/-! ## Search-path walk

Modelled from the spec: `bb.utils.which(path, item, history=True)` is not
among the sources; per spec section 4.C step 3, the resolver walks each
directory of `BBPATH` in order, tests `join(dir, name)` for existence, the
first existing path wins, and every tested path is appended to the attempts
history; the winner is returned as an absolute path (empty string when no
candidate exists). -/

/-- Walker for the modelled `bb.utils.which`. -/
def whichGo (fs : FsT) (cwd fn : String) : List String → List String → String × List String
  | [], hist => ("", hist)
  | p :: ps, hist =>
    let nxt := pathJoin p fn
    let hist2 := hist ++ [nxt]
    if pathExists fs nxt then (mkAbs cwd nxt, hist2) else whichGo fs cwd fn ps hist2

/-- Modelled from the spec: `bb.utils.which` in history mode (see above). -/
def which (fs : FsT) (cwd bbpath fn : String) : String × List String :=
  whichGo fs cwd fn (splitColon bbpath) []

/-! ## The resolver's LRU result cache -/

/-- A bounded LRU: a dict of entries plus a recency deque plus a ghost
eviction counter (the `_bb_metrics.evict` call site). -/
structure Lru (κ υ : Type) where
  entries : List (κ × υ)
  order : List κ
  evictions : Nat

/-- The empty LRU (module import time). -/
def lruEmpty {κ υ : Type} : Lru κ υ := { entries := [], order := [], evictions := 0 }

/-- Dict lookup on the LRU. -/
def lruLookup {κ υ : Type} [DecidableEq κ] (c : Lru κ υ) (k : κ) : Option υ :=
  assocLookup c.entries k

/-- Cache-hit recency refresh: `order.remove(key)` (ignoring absence) then
`order.append(key)`. -/
def lruRefresh {κ υ : Type} [DecidableEq κ] (c : Lru κ υ) (k : κ) : Lru κ υ :=
  { c with order := keyErase c.order k ++ [k] }

/-- Cache-miss insertion: store the entry, append to the recency deque, and
when the deque exceeds `cap` pop its front, drop that key from the dict and
record one eviction. -/
def lruInsert {κ υ : Type} [DecidableEq κ] (cap : Nat) (c : Lru κ υ) (k : κ) (v : υ) : Lru κ υ :=
  let entries := assocPut c.entries k v
  let order := c.order ++ [k]
  if order.length > cap then
    match order with
    | [] => { entries := entries, order := order, evictions := c.evictions }
    | o :: rest =>
      { entries := assocDrop entries o, order := rest, evictions := c.evictions + 1 }
  else { entries := entries, order := order, evictions := c.evictions }

/-- Insert a list of (key, value) pairs in order. -/
def lruInsertAll {κ υ : Type} [DecidableEq κ] (cap : Nat) (c : Lru κ υ)
    (ps : List (κ × υ)) : Lru κ υ :=
  ps.foldl (fun acc p => lruInsert cap acc p.1 p.2) c

/-! ## resolve_file -/

/-- `_RESOLVE_CACHE_MAX`: maximum entries for `resolve_file` memoization. -/
def RESOLVE_CACHE_MAX : Nat := 8192

/-- Key of the `resolve_file` cache: `(fn, False, bbpath)` as built at the
cache-lookup site (the second component is the absolute flag). -/
structure RKey where
  fn : String
  isAbsolute : Bool
  bbpath : String
deriving DecidableEq

/-- Cached value: `(newfn, tuple(attempts))` where `newfn` is empty when
resolution failed. -/
abbrev RVal := String × List String

/-- Module-level mutable state used by `resolve_file`: the shared mtime cache
and the resolver's LRU. -/
structure RState where
  mc : List (String × Stamp)
  cache : Lru RKey RVal

/-- The two `raise IOError(errno.ENOENT, ...)` sites of `resolve_file`:
`notFoundIn` is `"file %s not found in %s"` (search exhausted), `notFound` is
`"file %s not found"` (the final path is not a regular file).  Both carry
errno `ENOENT`. -/
inductive RErr where
  | notFoundIn (fn bbpath : String)
  | notFound (fn : String)
deriving DecidableEq

/-- Tail of `resolve_file` after attempts are marked: raise `notFoundIn` when
the walk produced no path, then `raise IOError` (the `notFound` site) unless
`os.path.isfile` holds, else return the path. -/
def resolveVerdict (fs : FsT) (fn bbpath newfn : String) : Except RErr String :=
  if newfn = "" then Except.error (RErr.notFoundIn fn bbpath)
  else if isRegular fs newfn then Except.ok newfn
  else Except.error (RErr.notFound newfn)

/-- `bb.parse.resolve_file`.  For a non-absolute name: look up
`(fn, False, BBPATH)` in the LRU (unless disabled); on a hit refresh the
recency; on a miss run the search-path walk and insert the frozen result,
evicting when over capacity; then mark every attempt as a dependency and fail
or return per `resolveVerdict`.  For an absolute name: mark it and check it is
a regular file.  (Metrics hit/miss bumps and timing do not affect any state
modelled here; the eviction bump is the LRU's ghost counter.) -/
def resolve_file (fs : FsT) (cwd : String) (disableCache : Bool) (fn : String)
    (st : RState) (d : DStore) : Except RErr String × RState × DStore :=
  if isabs fn then
    let md := mark_dependency fs cwd fn st.mc d
    let st2 : RState := { st with mc := md.1 }
    if isRegular fs fn then (Except.ok fn, st2, md.2)
    else (Except.error (RErr.notFound fn), st2, md.2)
  else
    let bbpath := d.bbpath
    let key : RKey := { fn := fn, isAbsolute := false, bbpath := bbpath }
    match (if disableCache then none else lruLookup st.cache key) with
    | some (newfn, attempts) =>
      let cache := lruRefresh st.cache key
      let md := markAll fs cwd attempts st.mc d
      (resolveVerdict fs fn bbpath newfn, { mc := md.1, cache := cache }, md.2)
    | none =>
      let wa := which fs cwd bbpath fn
      let cache := if disableCache then st.cache
                   else lruInsert RESOLVE_CACHE_MAX st.cache key wa
      let md := markAll fs cwd wa.2 st.mc d
      (resolveVerdict fs fn bbpath wa.1, { mc := md.1, cache := cache }, md.2)

/-! ## Recipe feeder (`BBHandler.feeder`) on a single line in initial state

The regexes of `BBHandler` are embedded as recognisers over the character
list of the line.  The greedy/backtracking behaviour of each anchored Python
regex is reproduced: for character classes that exclude the character that
must follow them, a maximal-munch scan is equivalent to full backtracking;
the one place where `\s+` must backtrack (a group that would otherwise be
empty) is handled explicitly. -/

/-- Left brace character (0x7b). -/
def braceL : Char := Char.ofNat 123

/-- Right brace character (0x7d). -/
def braceR : Char := Char.ofNat 125

/-- Python regex `\s` (ASCII). -/
def wsChar (c : Char) : Bool :=
  decide (c = ' ') || decide (c = '\t') || decide (c = '\n') ||
  decide (c = '\x0d') || decide (c = Char.ofNat 11) || decide (c = Char.ofNat 12)

/-- Python regex `\w` (ASCII). -/
def wordChar (c : Char) : Bool := c.isAlphanum || decide (c = '_')

/-- Character class of the function-name group of `__func_start_regexp__`:
`[\w\.\-\+\{\}\$:]`. -/
def funcChar (c : Char) : Bool :=
  wordChar c || decide (c = '.') || decide (c = '-') || decide (c = '+') ||
  decide (c = braceL) || decide (c = braceR) || decide (c = '$') || decide (c = ':')

/-- The `(((python(?=(\s|\()))|(fakeroot(?=\s)))\s*)*` prefix loop of
`__func_start_regexp__`: strip `python`/`fakeroot` tokens (with their
lookaheads) and following whitespace. -/
def stripPyFr : Nat → List Char → List Char
  | 0, l => l
  | Nat.succ fuel, l =>
    if prefixEq "python".data l &&
        (match l.drop 6 with
         | c :: _ => wsChar c || decide (c = '(')
         | [] => false) then
      stripPyFr fuel ((l.drop 6).dropWhile wsChar)
    else if prefixEq "fakeroot".data l &&
        (match l.drop 8 with
         | c :: _ => wsChar c
         | [] => false) then
      stripPyFr fuel ((l.drop 8).dropWhile wsChar)
    else l

/-- The `\s*\(\s*\)\s*{$` tail of `__func_start_regexp__`. -/
def funcTail (l : List Char) : Bool :=
  match l.dropWhile wsChar with
  | '(' :: r =>
    match r.dropWhile wsChar with
    | ')' :: r2 => decide (r2.dropWhile wsChar = [braceL])
    | _ => false
  | _ => false

/-- Recogniser for `__func_start_regexp__` (shell function opener). -/
def funcStartMatch (s : String) : Bool :=
  let l := stripPyFr (s.data.length + 1) s.data
  funcTail (l.dropWhile funcChar)

/-- Recogniser for `__def_regexp__ = def\s+(\w+).*:`. -/
def defMatch (s : String) : Bool :=
  if prefixEq "def".data s.data then
    match s.data.drop 3 with
    | c :: rest0 =>
      wsChar c &&
        (let r2 := (c :: rest0).dropWhile wsChar
         let w := r2.takeWhile wordChar
         decide (w ≠ []) && (r2.drop w.length).contains ':')
    | [] => false
  else false

/-- Recogniser for the `kw\s+(.+)` regexes (`EXPORT_FUNCTIONS`, `addhandler`,
`inherit`, `inherit_defer`), returning group 1.  When everything after the
whitespace run is empty, `\s+` backtracks and the group captures the run
minus its first character (if any remains). -/
def kwArgMatch (kw s : String) : Option String :=
  if prefixEq kw.data s.data then
    match s.data.drop kw.data.length with
    | c :: rest0 =>
      if wsChar c then
        let all := c :: rest0
        let wsrun := all.takeWhile wsChar
        let rest := all.dropWhile wsChar
        if rest ≠ [] then some (String.mk rest)
        else if wsrun.length ≥ 2 then some (String.mk (wsrun.drop 1)) else none
      else none
    | [] => none
  else none

/-- Recogniser for `__addtask_regexp__`/`__deltask_regexp__`
(`kw\s+([^#\n]+)(#.*|.*?)`), returning group 1: the characters after the
whitespace run up to a comment sign, with the same `\s+` backtracking as
`kwArgMatch` when that would be empty. -/
def taskGroup (kw s : String) : Option String :=
  if prefixEq kw.data s.data then
    match s.data.drop kw.data.length with
    | c :: rest0 =>
      if wsChar c then
        let all := c :: rest0
        let wsrun := all.takeWhile wsChar
        let rest := all.dropWhile wsChar
        let g := rest.takeWhile (fun ch => !(decide (ch = '#')) && !(decide (ch = '\n')))
        if g ≠ [] then some (String.mk g)
        else if wsrun.length ≥ 2 then some (String.mk (wsrun.drop 1)) else none
      else none
    | [] => none
  else none

/-- First occurrence of `sep` in a list: `(before, after-separator)`. -/
def findSplit (sep : List Char) : List Char → Option (List Char × List Char)
  | [] => if prefixEq sep [] then some ([], []) else none
  | c :: t =>
    if prefixEq sep (c :: t) then some ([], (c :: t).drop sep.length)
    else
      match findSplit sep t with
      | some (b, a) => some (c :: b, a)
      | none => none

/-- Fuelled worker for `str.split(sep)` with a non-empty separator. -/
def splitOnAux (sep : List Char) : Nat → List Char → List (List Char)
  | 0, l => [l]
  | Nat.succ fuel, l =>
    match findSplit sep l with
    | none => [l]
    | some (b, a) => b :: splitOnAux sep fuel a

/-- Python `s.split(sep)` for a non-empty separator. -/
def splitOnS (sep s : String) : List String :=
  (splitOnAux sep.data (s.data.length + 1) s.data).map String.mk

/-- Worker for whitespace `str.split()` (drops empty fields). -/
def splitWsGo : List Char → List Char → List String
  | [], cur => if cur = [] then [] else [String.mk cur.reverse]
  | c :: t, cur =>
    if wsChar c then
      (if cur = [] then splitWsGo t []
       else String.mk cur.reverse :: splitWsGo t [])
    else splitWsGo t (c :: cur)

/-- Python `s.split()` (split on whitespace runs). -/
def pySplit (s : String) : List String := splitWsGo s.data []

/-- Substring test over character lists. -/
def containsSub (pat : List Char) : List Char → Bool
  | [] => prefixEq pat []
  | c :: t => prefixEq pat (c :: t) || containsSub pat t

/-- Python `pat in hay` for strings. -/
def strContains (hay pat : String) : Bool := containsSub pat.data hay.data

/-- Modelled from the spec: `bb.data_smart.__setvar_keyword__` is not among
the sources; per the spec the reserved task-name prefixes checked by the
feeder are `append_`, `prepend_` and `remove_`, so the shared keyword list is
`append`, `prepend`, `remove` (each is suffixed with `_` at the check
site). -/
def SETVAR_KEYWORDS : List String := ["append", "prepend", "remove"]

/-- The keyword scan of the addtask branch: the first token of the
whitespace-split line embedding `keyword_` for some shared keyword. -/
def taskKwViolation (s : String) : Option String :=
  (pySplit s).find? (fun te => SETVAR_KEYWORDS.any (fun kw => strContains te (kw ++ "_")))

/-- `m.group(1).split(" before ")[0].split(" after ")[0]`. -/
def tasksOf (g : String) : String :=
  match splitOnS " before " g with
  | [] => g
  | x :: _ =>
    match splitOnS " after " x with
    | [] => x
    | y :: _ => y

/-- The `after` accumulation of the addtask branch. -/
def afterOf (g : String) : String :=
  ((splitOnS " before " g).map (fun exp =>
    let e2 := splitOnS " after " exp
    if e2.length > 1 then String.intercalate " " (e2.drop 1) else "")).foldl
    (fun a b => a ++ b) ""

/-- The `before` accumulation of the addtask branch. -/
def beforeOf (g : String) : String :=
  ((splitOnS " after " g).map (fun exp =>
    let e2 := splitOnS " before " exp
    if e2.length > 1 then String.intercalate " " (e2.drop 1) else "")).foldl
    (fun a b => a ++ b) ""

/-- Outcome of feeding one line to `BBHandler.feeder` in the initial parser
state (no open function, no residue).  `confLine` is the final fallthrough to
`ConfHandler.feeder`, which no claim here depends on. -/
inductive FeedOut where
  | continuation
  | skip
  | funcStart
  | defStart
  | exportFuncs (g : String)
  | parseErr (te : String)
  | addTask (tasks bef aft : String)
  | delTask (g : String)
  | addHandler (g : String)
  | inheritLine (g : String)
  | inheritDeferLine (g : String)
  | confLine (s : String)
deriving DecidableEq

/-- `BBHandler.feeder` applied to a single line in the initial parser state:
continuation and comment/blank handling, then the regex dispatch chain; in
the addtask branch the task expression is split on ` before `/` after ` and
the whole line is scanned for reserved keywords, raising `ParseError` (the
offending token is carried) before an AddTask node would be emitted. -/
def feeder (s : String) : FeedOut :=
  if decide (s ≠ "") && sEnds s "\\" then FeedOut.continuation
  else if decide (s = "") then FeedOut.skip
  else if (match s.data with | c :: _ => decide (c = '#') | [] => false) then FeedOut.skip
  else if funcStartMatch s then FeedOut.funcStart
  else if defMatch s then FeedOut.defStart
  else
    match kwArgMatch "EXPORT_FUNCTIONS" s with
    | some g => FeedOut.exportFuncs g
    | none =>
      match taskGroup "addtask" s with
      | some g =>
        match taskKwViolation s with
        | some te => FeedOut.parseErr te
        | none => FeedOut.addTask (tasksOf g) (beforeOf g) (afterOf g)
      | none =>
        match taskGroup "deltask" s with
        | some g => FeedOut.delTask g
        | none =>
          match kwArgMatch "addhandler" s with
          | some g => FeedOut.addHandler g
          | none =>
            match kwArgMatch "inherit" s with
            | some g => FeedOut.inheritLine g
            | none =>
              match kwArgMatch "inherit_defer" s with
              | some g => FeedOut.inheritDeferLine g
              | none => FeedOut.confLine s

/-! ## Statement cache (`BBHandler.get_statements` / `cached_statements`) -/

/-- `BBHandler.get_statements`: return the tree cached under the absolute
filename if present; otherwise parse the file (the line-feeding loop is the
abstract `parse`, which no cache claim depends on) and cache the result under
the absolute filename exactly when the passed `filename` ends in `.bbclass`
or `.inc`. -/
def get_statements {α : Type} (parse : String → α) (filename absolute_filename : String)
    (cache : List (String × α)) : α × List (String × α) :=
  match assocLookup cache absolute_filename with
  | some t => (t, cache)
  | none =>
    let statements := parse absolute_filename
    if sEnds filename ".bbclass" || sEnds filename ".inc" then
      (statements, cache ++ [(absolute_filename, statements)])
    else (statements, cache)

/-! ## Inherit deduplication (`BBHandler.inherit` and `BBHandler.handle`)

The loop body of `inherit` for one already-resolved class file, together with
the recursive dispatch through `bb.parse.handle` into `BBHandler.handle`.
Resolution and dependency marking do not touch `__inherit_cache` and the
claim conditions on the same resolved file, so the state carries only the
`__inherit_cache` list and a ghost log of dispatcher invocations; a class
body is abstracted to the list of class files its statements inherit in
order (`env`), and `pex` is `os.path.exists`.  Recursion is fuelled; every
theorem below holds for every fuel. -/

/-- Datastore slice for inherit: `__inherit_cache` plus the ghost dispatcher
log. -/
structure IState where
  cache : List String
  log : List String
deriving DecidableEq

/-- Sequencing of fallible steps over a list (the statements of a class body
performing their inherits in order; a raised `ParseError` aborts). -/
def exceptSeq {α : Type} (run : α → IState → Except String IState) :
    List α → IState → Except String IState
  | [], st => Except.ok st
  | g :: gs, st =>
    match run g st with
    | Except.ok st2 => exceptSeq run gs st2
    | Except.error e => Except.error e

/-- One iteration of the `inherit` loop for resolved class file `f`: raise
`ParseError` (the error carries `f`) unless the file exists; skip when `f` is
already in `__inherit_cache`; otherwise append it, then dispatch
`bb.parse.handle(f, d, True)` — which in `BBHandler.handle` appends `f` to
`__inherit_cache` only if absent, logs the invocation, and evaluates the
class body, i.e. runs the body's own inherits in order (fuelled recursion;
every theorem below holds for every fuel). -/
def inheritRun (env : String → List String) (pex : String → Bool) :
    Nat → String → IState → Except String IState
  | 0, _, st => Except.ok st
  | Nat.succ fuel, f, st =>
    if pex f = false then Except.error f
    else if f ∈ st.cache then Except.ok st
    else
      exceptSeq (inheritRun env pex fuel) (env f)
        { cache := if f ∈ st.cache ++ [f] then st.cache ++ [f] else (st.cache ++ [f]) ++ [f],
          log := st.log ++ [f] }


/-- Occurrence count of a string in a list. -/
def cnt (a : String) : List String → Nat
  | [] => 0
  | b :: t => (if b = a then 1 else 0) + cnt a t

/-! ## Metrics sidecar (`bb.parse.metrics`) -/

/-- One `{hits, misses, evictions}` bucket. -/
structure Counters where
  hits : Nat
  misses : Nat
  evictions : Nat
deriving DecidableEq

/-- One `{seconds, count}` time bucket (seconds as abstract nonnegative
ticks: `perf_counter` is monotone, so every recorded duration is
nonnegative). -/
structure TimeEnt where
  seconds : Nat
  count : Nat
deriving DecidableEq

/-- The initial `_totals` table. -/
def initTotals : List (String × Counters) :=
  [("which", { hits := 0, misses := 0, evictions := 0 }),
   ("resolve_file", { hits := 0, misses := 0, evictions := 0 }),
   ("inherit", { hits := 0, misses := 0, evictions := 0 }),
   ("include", { hits := 0, misses := 0, evictions := 0 }),
   ("conf_ast", { hits := 0, misses := 0, evictions := 0 }),
   ("supports", { hits := 0, misses := 0, evictions := 0 }),
   ("include_index", { hits := 0, misses := 0, evictions := 0 }),
   ("class_index", { hits := 0, misses := 0, evictions := 0 }),
   ("which_dir_index", { hits := 0, misses := 0, evictions := 0 })]

/-- The initial `_times` table. -/
def initTimes : List (String × TimeEnt) :=
  [("which", { seconds := 0, count := 0 }),
   ("resolve_file", { seconds := 0, count := 0 }),
   ("inherit", { seconds := 0, count := 0 }),
   ("include", { seconds := 0, count := 0 }),
   ("conf_ast_parse", { seconds := 0, count := 0 }),
   ("conf_eval", { seconds := 0, count := 0 }),
   ("supports", { seconds := 0, count := 0 })]

/-- One record of the append-only metrics file (the fields the claims are
about: the sequence number and the counter snapshots). -/
structure MRecord where
  seq : Nat
  totals : List (String × Counters)
  times : List (String × TimeEnt)
deriving DecidableEq

/-- Module state of `bb.parse.metrics`: the totals, the time buckets, the
`itertools.count(1)` position, and the records so far appended to the
`.jsonl` file. -/
structure MetricsState where
  totals : List (String × Counters)
  times : List (String × TimeEnt)
  seqNext : Nat
  records : List MRecord

/-- The metrics operations, serialised by the module lock.  `timeEnd` carries
the elapsed `perf_counter` delta of a completed `time_start`/`time_end`
pair; `flush ok` tells whether the file append succeeded — `next(_seq)` is
consumed while building the payload, before the guarded write, and a failed
write is silently dropped. -/
inductive MEvent where
  | hit (s : String)
  | miss (s : String)
  | evict (s : String)
  | timeEnd (s : String) (dt : Nat)
  | flush (ok : Bool)

/-- `_bump`: `_totals[section][field] += n` with the `KeyError` swallowed
(unknown sections are no-ops). -/
def bumpAssoc (upd : Counters → Counters) (s : String)
    (l : List (String × Counters)) : List (String × Counters) :=
  l.map (fun p => if p.1 = s then (p.1, upd p.2) else p)

/-- `time_end`: add the delta to the section's bucket, creating the bucket
when absent. -/
def timeAdd (s : String) (dt : Nat) (l : List (String × TimeEnt)) : List (String × TimeEnt) :=
  if (assocLookup l s).isSome then
    l.map (fun p => if p.1 = s then (p.1, { seconds := p.2.seconds + dt, count := p.2.count + 1 }) else p)
  else l ++ [(s, { seconds := dt, count := 1 })]

/-- One serialised metrics operation. -/
def mstep (st : MetricsState) : MEvent → MetricsState
  | MEvent.hit s =>
    { st with totals := bumpAssoc (fun c => { c with hits := c.hits + 1 }) s st.totals }
  | MEvent.miss s =>
    { st with totals := bumpAssoc (fun c => { c with misses := c.misses + 1 }) s st.totals }
  | MEvent.evict s =>
    { st with totals := bumpAssoc (fun c => { c with evictions := c.evictions + 1 }) s st.totals }
  | MEvent.timeEnd s dt => { st with times := timeAdd s dt st.times }
  | MEvent.flush ok =>
    let r : MRecord := { seq := st.seqNext, totals := st.totals, times := st.times }
    { st with seqNext := st.seqNext + 1,
              records := if ok then st.records ++ [r] else st.records }

/-- Import-time metrics state. -/
def minit : MetricsState :=
  { totals := initTotals, times := initTimes, seqNext := 1, records := [] }

/-- Run a serialised trace of metrics operations. -/
def runMetrics (evs : List MEvent) : MetricsState := evs.foldl mstep minit

/-- Counter bucket of a record under a section name (absent sections read as
zero). -/
def getC (l : List (String × Counters)) (s : String) : Counters :=
  (assocLookup l s).getD { hits := 0, misses := 0, evictions := 0 }

/-- Time bucket of a record under a section name (absent sections read as
zero). -/
def getT (l : List (String × TimeEnt)) (s : String) : TimeEnt :=
  (assocLookup l s).getD { seconds := 0, count := 0 }

/-- Pointwise order on counter buckets. -/
def cLe (a b : Counters) : Prop :=
  a.hits ≤ b.hits ∧ a.misses ≤ b.misses ∧ a.evictions ≤ b.evictions

/-- Pointwise order on time buckets. -/
def tLe (a b : TimeEnt) : Prop := a.seconds ≤ b.seconds ∧ a.count ≤ b.count

/-- Record `r` is dominated by record `q` on every section. -/
def recLe (r q : MRecord) : Prop :=
  (∀ s, cLe (getC r.totals s) (getC q.totals s)) ∧
  (∀ s, tLe (getT r.times s) (getT q.times s))

/-- Relation between successive flushed records: counters nondecreasing and
sequence number strictly increasing. -/
def recStep (r q : MRecord) : Prop := recLe r q ∧ r.seq < q.seq

/-! ## Include handling (`ConfHandler.include_single_file` and its caches) -/

/-- Python `os.path.dirname` (posixpath). -/
def dirname (p : String) : String :=
  let r := p.data.reverse
  let headRev := r.dropWhile (fun c => !(decide (c = '/')))
  if headRev = [] then ""
  else if headRev.all (fun c => decide (c = '/')) then String.mk headRev.reverse
  else String.mk ((headRev.dropWhile (fun c => decide (c = '/'))).reverse)

/-- The `BB_OPT_*` environment switches consulted by the include path. -/
structure EnvFlags where
  disableIncludeLru : Bool
  disableIncludeIndex : Bool
deriving DecidableEq

/-- `_include_resolve_max`. -/
def INCLUDE_RESOLVE_MAX : Nat := 8192

/-- `_include_index_max`. -/
def INCLUDE_INDEX_MAX : Nat := 256

/-- `ConfHandler._include_search_dirs`: the including file's directory (when
nonempty) followed by the nonempty `BBPATH` components. -/
def include_search_dirs (dname bbpath : String) : List String :=
  (if dname ≠ "" then [dname] else []) ++
  ((splitColon bbpath).filter (fun p => decide (p ≠ "")))

/-- `ConfHandler._dirs_fingerprint`: `(dir, st_mtime_ns, st_ino)` per
directory, `(dir, 0, 0)` when stat fails. -/
def dirs_fingerprint (fs : FsT) (dirs : List String) : List (String × Nat × Nat) :=
  dirs.map (fun dd =>
    match fs.stat dd with
    | some m => (dd, m.stamp.mtimeNs, m.stamp.ino)
    | none => (dd, 0, 0))

/-- `ConfHandler._build_include_index`: scan each directory (skipping ones
that fail to list), index regular files first-directory-wins. -/
def build_include_index (fs : FsT) (dname bbpath : String) :
    List (String × Nat × Nat) × List (String × String) :=
  let dirs := include_search_dirs dname bbpath
  (dirs_fingerprint fs dirs,
   dirs.foldl (fun mapping dd =>
     match fs.ls dd with
     | none => mapping
     | some names =>
       names.foldl (fun mp name =>
         let full := pathJoin dd name
         let isf := match fs.stat full with
                    | some m => decide (m.kind = FKind.regular)
                    | none => false
         if !isf then mp
         else if (assocLookup mp name).isSome then mp
         else mp ++ [(name, full)]) mapping) [])

/-- State of the include-index cache (`_include_index_cache` and its LRU
order). -/
structure IncIndexState where
  cache : List ((String × String) × (List (String × Nat × Nat) × List (String × String)))
  order : List (String × String)

/-- `ConfHandler._get_include_index`: serve the cached mapping while the
directory fingerprint matches (refreshing recency), else rebuild, store and
evict the least recently used entry past the bound. -/
def get_include_index (fs : FsT) (dname bbpath : String) (st : IncIndexState) :
    List (String × String) × IncIndexState :=
  let key := (dname, bbpath)
  let dirs := include_search_dirs dname bbpath
  let fp := dirs_fingerprint fs dirs
  let rebuild : List (String × String) × IncIndexState :=
    let built := build_include_index fs dname bbpath
    let cache2 := assocPut st.cache key built
    let order2 := st.order ++ [key]
    if order2.length > INCLUDE_INDEX_MAX then
      match order2 with
      | [] => (built.2, { cache := cache2, order := order2 })
      | o :: rest => (built.2, { cache := assocDrop cache2 o, order := rest })
    else (built.2, { cache := cache2, order := order2 })
  match assocLookup st.cache key with
  | some (cfp, cmap) =>
    if cfp = fp then (cmap, { st with order := keyErase st.order key ++ [key] })
    else rebuild
  | none => rebuild

/-- `ConfHandler._include_index_resolve`: look the basename up in the index;
the attempts list is one absolute candidate per search directory. -/
def include_index_resolve (fs : FsT) (cwd dname bbpath filename : String)
    (st : IncIndexState) : (String × List String) × IncIndexState :=
  let r := get_include_index fs dname bbpath st
  let resolved := match assocLookup r.1 filename with
                  | some p => p
                  | none => ""
  ((resolved,
    (include_search_dirs dname bbpath).map (fun dd => mkAbs cwd (pathJoin dd filename))),
   r.2)

/-- Key of `_include_resolve_cache`: `(fn, dname, BBPATH)`. -/
structure IKey where
  fn : String
  dname : String
  bbpath : String
deriving DecidableEq

/-- Exceptions `bb.parse.handle` may raise into `include_single_file`:
`IOError`/`OSError` with `errno == ENOENT`, or with another errno (the
carried string is `strerror`). -/
inductive HErr where
  | ioENOENT
  | ioOther (msg : String)

/-- `ParseError` raised by `include_single_file`. -/
inductive PErr where
  | parseErr (msg : String)

/-- Module state touched by `include_single_file`: the shared mtime cache,
the include-resolution LRU (`_include_resolve_cache`/`_order`, with a ghost
eviction count), the include index, and a ghost log of the files dispatched
to `bb.parse.handle`. -/
structure CState where
  mc : List (String × Stamp)
  incCache : List (IKey × RVal)
  incOrder : List IKey
  incEvictions : Nat
  incIndex : IncIndexState
  hlog : List String

/-- `ConfHandler.include_single_file`.  A self-include returns immediately.
Otherwise a relative name is resolved against `dirname(parent) + BBPATH`
through the include LRU (a hit needs the key in the recency deque; the order
is refreshed even when the dict entry is missing, matching the
`try: remove/append/[key]` block), falling back to the include index for
basename includes or to the search-path walk; the result is cached with LRU
eviction past the bound; a duplicate inclusion only warns; every attempt is
marked as a dependency; finally the file is dispatched to `bb.parse.handle`
(the opaque `hfn`, logged), and an `ENOENT` failure raises `ParseError` only
when `errorOut` names a verb. -/
def include_single_file (fs : FsT) (cwd : String) (flags : EnvFlags)
    (hfn : String → DStore → CState → Except HErr (DStore × CState))
    (parentfn fn : String) (_lineno : Nat) (d : DStore) (errorOut : Option String)
    (st : CState) : Except PErr Unit × DStore × CState :=
  if parentfn = fn then (Except.ok (), d, st)
  else
    let step :=
      if isabs fn = false then
        let dname := dirname parentfn
        let bbpath := dname ++ ":" ++ d.bbpath
        let key : IKey := { fn := fn, dname := dname, bbpath := d.bbpath }
        let hit :=
          if flags.disableIncludeLru then (none, st.incOrder)
          else if key ∈ st.incOrder then
            (assocLookup st.incCache key, keyErase st.incOrder key ++ [key])
          else (none, st.incOrder)
        let afterResolve :=
          match hit.1 with
          | some v => (v, { st with incOrder := hit.2 })
          | none =>
            let useIndex := !(fn.data.contains '/') && !flags.disableIncludeIndex
            let resolved :=
              if useIndex then
                let rr := include_index_resolve fs cwd dname d.bbpath fn st.incIndex
                (rr.1, { st with incOrder := hit.2, incIndex := rr.2 })
              else (which fs cwd bbpath fn, { st with incOrder := hit.2 })
            if flags.disableIncludeLru then resolved
            else
              let st2 := resolved.2
              let cache2 := assocPut st2.incCache key resolved.1
              let order2 := st2.incOrder ++ [key]
              if order2.length > INCLUDE_RESOLVE_MAX then
                match order2 with
                | [] => (resolved.1, { st2 with incCache := cache2, incOrder := order2 })
                | o :: rest =>
                  (resolved.1,
                   { st2 with incCache := assocDrop cache2 o, incOrder := rest,
                              incEvictions := st2.incEvictions + 1 })
              else (resolved.1, { st2 with incCache := cache2, incOrder := order2 })
        let absfn := afterResolve.1.1
        let attempts := afterResolve.1.2
        let stA := afterResolve.2
        let mcW := if absfn ≠ "" then (check_dependency fs absfn stA.mc d).2 else stA.mc
        let md := markAll fs cwd attempts mcW d
        ((if absfn ≠ "" then absfn else fn), md.2, { stA with mc := md.1 })
      else
        let w := check_dependency fs fn st.mc d
        (fn, d, { st with mc := w.2 })
    let fn2 := step.1
    let d2 := step.2.1
    let st3 := { step.2.2 with hlog := step.2.2.hlog ++ [fn2] }
    match hfn fn2 d2 st3 with
    | Except.ok r => (Except.ok (), r.1, r.2)
    | Except.error HErr.ioENOENT =>
      match errorOut with
      | some verb =>
        (Except.error (PErr.parseErr ("Could not " ++ verb ++ " file " ++ fn2)), d2, st3)
      | none => (Except.ok (), d2, st3)
    | Except.error (HErr.ioOther msg) =>
      match errorOut with
      | some verb =>
        (Except.error (PErr.parseErr ("Could not " ++ verb ++ " file " ++ fn2 ++ ": " ++ msg)),
         d2, st3)
      | none =>
        (Except.error (PErr.parseErr ("Error parsing " ++ fn2 ++ ": " ++ msg)), d2, st3)

/-! ## Derived pure forms and fixtures used by the theorems below -/

/-- The pure stamp of a path: the stat triple, or the sentinel `0` when stat
fails. -/
def mstampOf (fs : FsT) (f : String) : MStamp :=
  match fs.stat f with
  | some m => MStamp.st m.stamp
  | none => MStamp.zero

/-- Every mtime-cache entry agrees with the (unchanged) filesystem. -/
def mcConsistent (fs : FsT) (mc : List (String × Stamp)) : Prop :=
  ∀ p ∈ mc, ∃ m, fs.stat p.1 = some m ∧ m.stamp = p.2

/-- Pure form of one `mark_dependency` step on the `__depends` list. -/
def depAppend (fs : FsT) (cwd : String) (deps : List (String × MStamp)) (af : String) :
    List (String × MStamp) :=
  let n := markedName cwd af
  let s := (n, mstampOf fs n)
  if s ∈ deps then deps else deps ++ [s]

/-- Pure form of the attempts-marking loop. -/
def depAppendAll (fs : FsT) (cwd : String) (deps : List (String × MStamp))
    (afs : List String) : List (String × MStamp) :=
  afs.foldl (depAppend fs cwd) deps

/-- Fixture filesystem for the C1 witness: only `/p/./bar` exists. -/
def fsW1 : FsT :=
  { stat := fun f => if f = "/p/./bar" then
      some { kind := FKind.regular, stamp := { mtimeNs := 4, size := 5, ino := 6 } }
    else none,
    ls := fun _ => none }

/-- Fixture filesystem for the C2 witness: only `/b/foo.conf` exists. -/
def fsW2 : FsT :=
  { stat := fun f => if f = "/b/foo.conf" then
      some { kind := FKind.regular, stamp := { mtimeNs := 7, size := 8, ino := 9 } }
    else none,
    ls := fun _ => none }

/-- Fixture filesystem for the C7 witness: only `/q/inc.conf` exists. -/
def fsW7 : FsT :=
  { stat := fun f => if f = "/q/inc.conf" then
      some { kind := FKind.regular, stamp := { mtimeNs := 2, size := 3, ino := 4 } }
    else none,
    ls := fun _ => none }

/-- The current totals snapshot of a metrics state, as a record with the
next sequence number. -/
def curRecord (st : MetricsState) : MRecord :=
  { seq := st.seqNext, totals := st.totals, times := st.times }

/-- Invariant: the flushed records form a `recStep` chain, and every record
is dominated by the current snapshot with a strictly smaller sequence
number. -/
def msInv (st : MetricsState) : Prop :=
  List.Chain' recStep st.records ∧
  ∀ r ∈ st.records, recLe r (curRecord st) ∧ r.seq < st.seqNext

theorem mem_of_getLast_opt {α : Type} :
    ∀ (l : List α) (a : α), l.getLast? = some a → a ∈ l := by
  intro l
  induction l with
  | nil => intro a h; simp at h
  | cons b t ih =>
    intro a h
    cases t with
    | nil =>
      simp at h
      simp [h]
    | cons c u =>
      rw [List.getLast?_cons_cons] at h
      exact List.mem_cons_of_mem _ (ih a h)


/-! ## Basic lemmas about the association-list primitives -/

theorem assocLookup_append {κ υ : Type} [DecidableEq κ] (l l2 : List (κ × υ)) (k : κ) :
    assocLookup (l ++ l2) k =
      match assocLookup l k with
      | some v => some v
      | none => assocLookup l2 k := by
  induction l with
  | nil => simp [assocLookup]
  | cons p t ih =>
    by_cases h : p.1 = k <;> simp [assocLookup, h, ih]

theorem assocLookup_mem {κ υ : Type} [DecidableEq κ] {l : List (κ × υ)} {k : κ} {v : υ}
    (h : assocLookup l k = some v) : (k, v) ∈ l := by
  induction l with
  | nil => simp [assocLookup] at h
  | cons p t ih =>
    obtain ⟨a, b⟩ := p
    by_cases hp : a = k
    · subst hp
      simp [assocLookup] at h
      simp [h]
    · simp [assocLookup, hp] at h
      exact List.mem_cons_of_mem _ (ih h)

theorem assocLookup_mapPut {κ υ : Type} [DecidableEq κ] (l : List (κ × υ)) (k : κ) (v : υ) :
    assocLookup (l.map (fun p => if p.1 = k then (k, v) else p)) k =
      (assocLookup l k).map (fun _ => v) := by
  induction l with
  | nil => simp [assocLookup]
  | cons p t ih =>
    by_cases h : p.1 = k
    · simp [assocLookup, h]
    · simp [assocLookup, h, ih]

theorem assocLookup_put_self {κ υ : Type} [DecidableEq κ] (l : List (κ × υ)) (k : κ) (v : υ) :
    assocLookup (assocPut l k v) k = some v := by
  unfold assocPut
  by_cases h : (assocLookup l k).isSome
  · rw [if_pos h, assocLookup_mapPut]
    cases hl : assocLookup l k with
    | some w => simp
    | none => rw [hl] at h; simp at h
  · rw [if_neg h, assocLookup_append]
    cases hl : assocLookup l k with
    | some w => rw [hl] at h; simp at h
    | none => simp [assocLookup]

theorem assocLookup_mapPut_ne {κ υ : Type} [DecidableEq κ] (l : List (κ × υ)) (k : κ)
    (v : υ) (x : κ) (h : x ≠ k) :
    assocLookup (l.map (fun p => if p.1 = k then (k, v) else p)) x = assocLookup l x := by
  induction l with
  | nil => simp [assocLookup]
  | cons p t ih =>
    by_cases hp : p.1 = k
    · have hkx : ¬ (k = x) := fun hh => h hh.symm
      have hpx : ¬ (p.1 = x) := by rw [hp]; exact hkx
      simp [assocLookup, hp, hkx, hpx, ih]
    · by_cases hx : p.1 = x
      · simp [assocLookup, hp, hx, h]
      · simp [assocLookup, hp, hx, ih]

theorem assocLookup_put_ne {κ υ : Type} [DecidableEq κ] (l : List (κ × υ)) (k : κ) (v : υ)
    (x : κ) (h : x ≠ k) : assocLookup (assocPut l k v) x = assocLookup l x := by
  unfold assocPut
  split
  · exact assocLookup_mapPut_ne l k v x h
  · rw [assocLookup_append]
    cases hl : assocLookup l x with
    | some w => simp
    | none =>
      have hkx : ¬ (k = x) := fun hh => h hh.symm
      simp [assocLookup, hkx]

theorem assocLookup_drop {κ υ : Type} [DecidableEq κ] (l : List (κ × υ)) (k x : κ) :
    assocLookup (assocDrop l k) x = if x = k then none else assocLookup l x := by
  induction l with
  | nil => simp [assocDrop, assocLookup]
  | cons p t ih =>
    by_cases hp : p.1 = k
    · have hfilter : assocDrop (p :: t) k = assocDrop t k := by
        simp [assocDrop, List.filter_cons, hp]
      rw [hfilter, ih]
      by_cases hx : x = k
      · simp [hx]
      · have hpx : ¬ (p.1 = x) := by rw [hp]; exact fun hh => hx hh.symm
        simp [assocLookup, hpx, hx]
    · have hfilter : assocDrop (p :: t) k = p :: assocDrop t k := by
        simp [assocDrop, List.filter_cons, hp]
      rw [hfilter]
      by_cases hx : p.1 = x
      · have hxk : ¬ (x = k) := fun hh => hp (by rw [hx, hh])
        simp [assocLookup, hx, hxk]
      · simp [assocLookup, hx, ih]

/-! ## The mtime cache is consistent with the filesystem

"Unchanged filesystem" means every cached stamp agrees with a fresh stat;
under that invariant `cached_mtime_noerror` is the pure stamp function
`mstampOf`, making the dependency-marking loop a pure fold. -/

theorem mcConsistent_nil (fs : FsT) : mcConsistent fs [] := by
  intro p hp
  simp at hp

theorem cached_mtime_noerror_spec (fs : FsT) (f : String) (mc : List (String × Stamp))
    (h : mcConsistent fs mc) :
    (cached_mtime_noerror fs f mc).1 = mstampOf fs f ∧
    mcConsistent fs (cached_mtime_noerror fs f mc).2 := by
  unfold cached_mtime_noerror mstampOf
  cases hl : assocLookup mc f with
  | some s =>
    obtain ⟨m, hm, hms⟩ := h (f, s) (assocLookup_mem hl)
    simp only [hm, hms]
    exact ⟨by trivial, h⟩
  | none =>
    cases hstat : fs.stat f with
    | some m =>
      refine ⟨rfl, ?_⟩
      intro p hp
      rcases List.mem_append.mp hp with hin | hnew
      · exact h p hin
      · simp at hnew
        rw [hnew]
        exact ⟨m, hstat, rfl⟩
    | none => exact ⟨rfl, h⟩

theorem mark_dependency_spec (fs : FsT) (cwd f : String) (mc : List (String × Stamp))
    (d : DStore) (h : mcConsistent fs mc) :
    (mark_dependency fs cwd f mc d).2.depends = depAppend fs cwd d.depends f ∧
    (mark_dependency fs cwd f mc d).2.bbpath = d.bbpath ∧
    mcConsistent fs (mark_dependency fs cwd f mc d).1 := by
  obtain ⟨hval, hcons⟩ := cached_mtime_noerror_spec fs (markedName cwd f) mc h
  simp only [mark_dependency, depAppend, hval]
  by_cases hmem : (markedName cwd f, mstampOf fs (markedName cwd f)) ∈ d.depends
  · simp only [if_pos hmem]
    exact ⟨by trivial, by trivial, hcons⟩
  · simp only [if_neg hmem]
    exact ⟨by trivial, by trivial, hcons⟩

theorem markAll_spec (fs : FsT) (cwd : String) (afs : List String)
    (mc : List (String × Stamp)) (d : DStore) (h : mcConsistent fs mc) :
    (markAll fs cwd afs mc d).2.depends = depAppendAll fs cwd d.depends afs ∧
    (markAll fs cwd afs mc d).2.bbpath = d.bbpath ∧
    mcConsistent fs (markAll fs cwd afs mc d).1 := by
  induction afs generalizing mc d with
  | nil => exact ⟨rfl, rfl, h⟩
  | cons af rest ih =>
    obtain ⟨h1, h2, h3⟩ := mark_dependency_spec fs cwd af mc d h
    have step : markAll fs cwd (af :: rest) mc d =
        markAll fs cwd rest (mark_dependency fs cwd af mc d).1
          (mark_dependency fs cwd af mc d).2 := rfl
    rw [step]
    obtain ⟨g1, g2, g3⟩ := ih (mark_dependency fs cwd af mc d).1
      (mark_dependency fs cwd af mc d).2 h3
    refine ⟨?_, ?_, g3⟩
    · rw [g1, h1]
      rfl
    · rw [g2, h2]

/-! ### Properties of the pure dependency fold -/

theorem depAppend_mem_preserved (fs : FsT) (cwd : String) {deps : List (String × MStamp)}
    {s : String × MStamp} (h : s ∈ deps) (af : String) :
    s ∈ depAppend fs cwd deps af := by
  simp only [depAppend]
  split
  · exact h
  · exact List.mem_append_left _ h

theorem depAppendAll_mem_preserved (fs : FsT) (cwd : String) {deps : List (String × MStamp)}
    {s : String × MStamp} (h : s ∈ deps) (afs : List String) :
    s ∈ depAppendAll fs cwd deps afs := by
  induction afs generalizing deps with
  | nil => exact h
  | cons af rest ih => exact ih (depAppend_mem_preserved fs cwd h af)

theorem depAppend_self_mem (fs : FsT) (cwd : String) (deps : List (String × MStamp))
    (af : String) :
    (markedName cwd af, mstampOf fs (markedName cwd af)) ∈ depAppend fs cwd deps af := by
  simp only [depAppend]
  split
  · assumption
  · exact List.mem_append_right _ (by simp)

theorem depAppendAll_self_mem (fs : FsT) (cwd : String) (deps : List (String × MStamp))
    {af : String} {afs : List String} (h : af ∈ afs) :
    (markedName cwd af, mstampOf fs (markedName cwd af)) ∈ depAppendAll fs cwd deps afs := by
  induction afs generalizing deps with
  | nil => simp at h
  | cons b rest ih =>
    rcases List.mem_cons.mp h with hb | hr
    · subst hb
      exact depAppendAll_mem_preserved fs cwd (depAppend_self_mem fs cwd deps af) rest
    · exact ih (depAppend fs cwd deps b) hr

theorem depAppendAll_of_all_mem (fs : FsT) (cwd : String) (deps : List (String × MStamp))
    (afs : List String)
    (h : ∀ af ∈ afs, (markedName cwd af, mstampOf fs (markedName cwd af)) ∈ deps) :
    depAppendAll fs cwd deps afs = deps := by
  induction afs with
  | nil => rfl
  | cons af rest ih =>
    have hmem := h af (by simp)
    have hstep : depAppend fs cwd deps af = deps := by
      simp only [depAppend]
      exact if_pos hmem
    show depAppendAll fs cwd (depAppend fs cwd deps af) rest = deps
    rw [hstep]
    exact ih (fun a ha => h a (List.mem_cons_of_mem _ ha))

theorem depAppendAll_idem (fs : FsT) (cwd : String) (deps : List (String × MStamp))
    (afs : List String) :
    depAppendAll fs cwd (depAppendAll fs cwd deps afs) afs = depAppendAll fs cwd deps afs :=
  depAppendAll_of_all_mem fs cwd _ afs
    (fun _ ha => depAppendAll_self_mem fs cwd deps ha)

theorem depAppendAll_shape (fs : FsT) (cwd : String) (deps : List (String × MStamp))
    (afs : List String) {e : String × MStamp} (he : e ∈ depAppendAll fs cwd deps afs) :
    e ∈ deps ∨ e.2 = mstampOf fs e.1 := by
  induction afs generalizing deps with
  | nil => exact Or.inl he
  | cons af rest ih =>
    rcases ih (depAppend fs cwd deps af) he with hin | hcan
    · simp only [depAppend] at hin
      split at hin
      · exact Or.inl hin
      · rcases List.mem_append.mp hin with h1 | h2
        · exact Or.inl h1
        · simp at h2
          rw [h2]
          exact Or.inr rfl
    · exact Or.inr hcan

theorem depAppend_nodup (fs : FsT) (cwd : String) {deps : List (String × MStamp)}
    (h : deps.Nodup) (af : String) : (depAppend fs cwd deps af).Nodup := by
  simp only [depAppend]
  by_cases hmem : (markedName cwd af, mstampOf fs (markedName cwd af)) ∈ deps
  · simp only [if_pos hmem]
    exact h
  · simp only [if_neg hmem]
    refine List.Nodup.append h (List.nodup_singleton _) ?_
    intro a ha hb
    simp at hb
    rw [hb] at ha
    exact hmem ha

theorem depAppendAll_nodup (fs : FsT) (cwd : String) {deps : List (String × MStamp)}
    (h : deps.Nodup) (afs : List String) : (depAppendAll fs cwd deps afs).Nodup := by
  induction afs generalizing deps with
  | nil => exact h
  | cons af rest ih => exact ih (depAppend_nodup fs cwd h af)

theorem depAppendAll_fst_nodup (fs : FsT) (cwd : String) (afs : List String) :
    ((depAppendAll fs cwd [] afs).map Prod.fst).Nodup := by
  have hnd : (depAppendAll fs cwd [] afs).Nodup :=
    depAppendAll_nodup fs cwd List.nodup_nil afs
  refine List.Nodup.map_on ?_ hnd
  intro x hx y hy hxy
  rcases depAppendAll_shape fs cwd [] afs hx with h1 | hcx
  · simp at h1
  rcases depAppendAll_shape fs cwd [] afs hy with h2 | hcy
  · simp at h2
  obtain ⟨x1, x2⟩ := x
  obtain ⟨y1, y2⟩ := y
  simp at hxy hcx hcy
  subst hxy
  rw [hcx, hcy]

theorem depAppendAll_map (fs : FsT) (cwd : String) :
    ∀ (afs : List String) (deps : List (String × MStamp)),
    (afs.map (markedName cwd)).Nodup →
    (∀ af ∈ afs, markedName cwd af ∉ deps.map Prod.fst) →
    depAppendAll fs cwd deps afs =
      deps ++ afs.map (fun af => (markedName cwd af, mstampOf fs (markedName cwd af))) := by
  intro afs
  induction afs with
  | nil => intro deps _ _; simp [depAppendAll]
  | cons af rest ih =>
    intro deps hnd hfresh
    have hpair : (markedName cwd af, mstampOf fs (markedName cwd af)) ∉ deps := by
      intro hmem
      exact hfresh af (by simp) (List.mem_map_of_mem Prod.fst hmem)
    have hstep : depAppend fs cwd deps af =
        deps ++ [(markedName cwd af, mstampOf fs (markedName cwd af))] := by
      simp only [depAppend]
      exact if_neg hpair
    have hnd2 : (rest.map (markedName cwd)).Nodup := by
      simp at hnd
      exact hnd.2
    have hhead : markedName cwd af ∉ rest.map (markedName cwd) := by
      simp at hnd
      intro hmem
      rcases List.mem_map.mp hmem with ⟨b, hb, hbe⟩
      exact hnd.1 b hb hbe
    have hfresh2 : ∀ a ∈ rest, markedName cwd a ∉
        (deps ++ [(markedName cwd af, mstampOf fs (markedName cwd af))]).map Prod.fst := by
      intro a ha
      rw [List.map_append]
      intro hmem
      rcases List.mem_append.mp hmem with h1 | h2
      · exact hfresh a (List.mem_cons_of_mem _ ha) h1
      · simp at h2
        exact hhead (h2 ▸ List.mem_map_of_mem (markedName cwd) ha)
    show depAppendAll fs cwd (depAppend fs cwd deps af) rest = _
    rw [hstep, ih _ hnd2 hfresh2]
    simp

/-! ## Unrolling resolve_file on its three paths -/

theorem resolve_file_rel_miss (fs : FsT) (cwd fn : String) (st : RState) (d : DStore)
    (habs : isabs fn = false)
    (hfresh : lruLookup st.cache { fn := fn, isAbsolute := false, bbpath := d.bbpath } = none) :
    resolve_file fs cwd false fn st d =
      (resolveVerdict fs fn d.bbpath (which fs cwd d.bbpath fn).1,
       { mc := (markAll fs cwd (which fs cwd d.bbpath fn).2 st.mc d).1,
         cache := lruInsert RESOLVE_CACHE_MAX st.cache
           { fn := fn, isAbsolute := false, bbpath := d.bbpath } (which fs cwd d.bbpath fn) },
       (markAll fs cwd (which fs cwd d.bbpath fn).2 st.mc d).2) := by
  simp [resolve_file, habs, hfresh]

theorem resolve_file_rel_hit (fs : FsT) (cwd fn : String) (st : RState) (d : DStore)
    (newfn : String) (attempts : List String) (habs : isabs fn = false)
    (hhit : lruLookup st.cache { fn := fn, isAbsolute := false, bbpath := d.bbpath } =
      some (newfn, attempts)) :
    resolve_file fs cwd false fn st d =
      (resolveVerdict fs fn d.bbpath newfn,
       { mc := (markAll fs cwd attempts st.mc d).1,
         cache := lruRefresh st.cache { fn := fn, isAbsolute := false, bbpath := d.bbpath } },
       (markAll fs cwd attempts st.mc d).2) := by
  simp [resolve_file, habs, hhit]

theorem resolve_file_abs (fs : FsT) (cwd fn : String) (st : RState) (d : DStore)
    (habs : isabs fn = true) :
    resolve_file fs cwd false fn st d =
      (if isRegular fs fn then Except.ok fn else Except.error (RErr.notFound fn),
       { st with mc := (mark_dependency fs cwd fn st.mc d).1 },
       (mark_dependency fs cwd fn st.mc d).2) := by
  by_cases hreg : isRegular fs fn <;> simp [resolve_file, habs, hreg]

theorem isabs_of_dotslash {fn : String} (h : sStarts fn "./" = true) : isabs fn = false := by
  unfold sStarts at h
  unfold isabs sStarts
  have hd : "./".data = ['.', '/'] := rfl
  have hs : "/".data = ['/'] := rfl
  rw [hd] at h
  rw [hs]
  match hm : fn.data with
  | [] => rw [hm] at h; simp [prefixEq] at h
  | c :: t =>
    rw [hm] at h
    simp [prefixEq] at h ⊢
    intro hc
    have hdot : ('.' : Char) = '/' := h.1.trans hc.symm
    exact absurd hdot (by decide)

/-! ## Claim C1: resolve_file on names starting with "./" -/

/-- C1 counterexample.  The claim states that for a name starting with `./`
the resolver rewrites it to `{cwd}/{remainder}`, marks exactly one dependency
(that rewritten path), returns the rewritten path, and does not walk BBPATH.
On the code, with `cwd = /cwd`, `BBPATH = /a:/b` and only `/b/./foo`
existing, `resolve_file("./foo")` walks BBPATH, marks the two attempted
candidates `/a/./foo` and `/b/./foo` (not `/cwd/foo`), and returns
`/b/./foo`: `./foo` is not absolute, so it takes the search-path branch, and
the `./` rewrite lives only in `mark_dependency`. -/
theorem resolve_file_dotslash_cex :
    (resolve_file
        { stat := fun f => if f = "/b/./foo" then
            some { kind := FKind.regular, stamp := { mtimeNs := 1, size := 2, ino := 3 } }
          else none,
          ls := fun _ => none }
        "/cwd" false "./foo" { mc := [], cache := lruEmpty }
        { depends := [], bbpath := "/a:/b" }).1 = Except.ok "/b/./foo" ∧
    (resolve_file
        { stat := fun f => if f = "/b/./foo" then
            some { kind := FKind.regular, stamp := { mtimeNs := 1, size := 2, ino := 3 } }
          else none,
          ls := fun _ => none }
        "/cwd" false "./foo" { mc := [], cache := lruEmpty }
        { depends := [], bbpath := "/a:/b" }).2.2.depends.map Prod.fst =
      ["/a/./foo", "/b/./foo"] := by
  constructor
  · rfl
  · rfl

/-- C1 (amended): a name starting with `./` receives no rewrite in
`resolve_file` itself; it is resolved like any other relative name, the
BBPATH walk is performed, one dependency is marked per attempted candidate
(`mark_dependency` rewrites an attempt only when the attempt itself starts
with `./`), and the outcome is the verdict on the walk's winner. -/
theorem resolve_file_dotslash_walks_bbpath (fs : FsT) (cwd fn : String) (st : RState)
    (d : DStore)
    (hdot : sStarts fn "./" = true)
    (hmc : mcConsistent fs st.mc)
    (hfresh : lruLookup st.cache { fn := fn, isAbsolute := false, bbpath := d.bbpath } = none)
    (hdeps : d.depends = [])
    (hnd : (((which fs cwd d.bbpath fn).2).map (markedName cwd)).Nodup) :
    (resolve_file fs cwd false fn st d).2.2.depends.map Prod.fst =
      ((which fs cwd d.bbpath fn).2).map (markedName cwd) ∧
    (resolve_file fs cwd false fn st d).1 =
      resolveVerdict fs fn d.bbpath (which fs cwd d.bbpath fn).1 := by
  have habs := isabs_of_dotslash hdot
  rw [resolve_file_rel_miss fs cwd fn st d habs hfresh]
  obtain ⟨hdep, hbb, hcons⟩ := markAll_spec fs cwd (which fs cwd d.bbpath fn).2 st.mc d hmc
  constructor
  · show (markAll fs cwd (which fs cwd d.bbpath fn).2 st.mc d).2.depends.map Prod.fst = _
    rw [hdep, hdeps]
    rw [depAppendAll_map fs cwd _ [] hnd (by intro a _ha; simp)]
    simp
  · rfl

/-- C1 witness: the amended theorem applied at a concrete input. -/
theorem resolve_file_dotslash_walks_bbpath_witness :
    (resolve_file fsW1 "/w" false "./bar" { mc := [], cache := lruEmpty }
        { depends := [], bbpath := "/p" }).2.2.depends.map Prod.fst =
      ((which fsW1 "/w" "/p" "./bar").2).map (markedName "/w") ∧
    (resolve_file fsW1 "/w" false "./bar" { mc := [], cache := lruEmpty }
        { depends := [], bbpath := "/p" }).1 =
      resolveVerdict fsW1 "./bar" "/p" (which fsW1 "/w" "/p" "./bar").1 :=
  resolve_file_dotslash_walks_bbpath fsW1 "/w" "./bar"
    { mc := [], cache := lruEmpty } { depends := [], bbpath := "/p" }
    (by decide) (mcConsistent_nil fsW1) rfl rfl (by decide)

/-! ## Claim C2: dependency marking is idempotent across a repeated resolve -/

theorem lruLookup_insert_self {κ υ : Type} [DecidableEq κ] (cap : Nat) (c : Lru κ υ)
    (k : κ) (v : υ) (hcap : 0 < cap) (horder : k ∉ c.order) :
    lruLookup (lruInsert cap c k v) k = some v := by
  simp only [lruInsert, lruLookup]
  by_cases hlen : (c.order ++ [k]).length > cap
  · rw [if_pos hlen]
    cases ho : c.order with
    | nil =>
      rw [ho] at hlen
      simp at hlen
      omega
    | cons o rest =>
      show assocLookup (assocDrop (assocPut c.entries k v) o) k = some v
      rw [assocLookup_drop]
      have hok : ¬ (k = o) := by
        intro he
        rw [ho] at horder
        exact horder (he ▸ List.mem_cons_self o rest)
      rw [if_neg hok]
      exact assocLookup_put_self c.entries k v
  · rw [if_neg hlen]
    exact assocLookup_put_self c.entries k v

/-- C2: with the filesystem unchanged (the mtime cache is consistent with it)
and the key not yet cached, running `resolve_file` twice with the same name
and BBPATH leaves `__depends` exactly as after the first run — the second
call is a cache hit that re-marks the frozen attempts, and value-equality
dedup in `mark_dependency` suppresses every duplicate — the second result is
the first result, and from an empty record each attempted path (the single
absolute name, or every BBPATH candidate) is recorded exactly once (the
recorded path names are distinct and every attempt appears). -/
theorem resolve_file_depends_idempotent (fs : FsT) (cwd fn : String) (st : RState) (d : DStore)
    (hmc : mcConsistent fs st.mc)
    (hfresh : lruLookup st.cache { fn := fn, isAbsolute := false, bbpath := d.bbpath } = none)
    (horder : ({ fn := fn, isAbsolute := false, bbpath := d.bbpath } : RKey) ∉ st.cache.order) :
    ((resolve_file fs cwd false fn
        (resolve_file fs cwd false fn st d).2.1
        (resolve_file fs cwd false fn st d).2.2).2.2).depends =
      ((resolve_file fs cwd false fn st d).2.2).depends ∧
    (resolve_file fs cwd false fn
        (resolve_file fs cwd false fn st d).2.1
        (resolve_file fs cwd false fn st d).2.2).1 =
      (resolve_file fs cwd false fn st d).1 ∧
    (d.depends = [] →
      ((((resolve_file fs cwd false fn st d).2.2).depends.map Prod.fst).Nodup ∧
       ∀ af ∈ (if isabs fn then [fn] else (which fs cwd d.bbpath fn).2),
         markedName cwd af ∈ ((resolve_file fs cwd false fn st d).2.2).depends.map Prod.fst)) := by
  cases habs : isabs fn with
  | true =>
    rw [resolve_file_abs fs cwd fn st d habs]
    obtain ⟨h1, h2, h3⟩ := mark_dependency_spec fs cwd fn st.mc d hmc
    rw [resolve_file_abs fs cwd fn _ _ habs]
    obtain ⟨g1, g2, g3⟩ := mark_dependency_spec fs cwd fn
      (mark_dependency fs cwd fn st.mc d).1 (mark_dependency fs cwd fn st.mc d).2 h3
    refine ⟨?_, rfl, ?_⟩
    · rw [g1, h1]
      exact depAppendAll_of_all_mem fs cwd _ [fn]
        (by
          intro a ha
          simp at ha
          rw [ha]
          exact depAppend_self_mem fs cwd d.depends fn)
    · intro hdeps
      constructor
      · rw [h1, hdeps]
        have := depAppendAll_fst_nodup fs cwd [fn]
        simpa [depAppendAll] using this
      · intro af haf
        rw [if_pos rfl] at haf
        simp [habs] at haf
        rw [haf, h1, hdeps]
        exact List.mem_map_of_mem Prod.fst (depAppend_self_mem fs cwd [] fn)
  | false =>
    rw [resolve_file_rel_miss fs cwd fn st d habs hfresh]
    obtain ⟨h1, h2, h3⟩ := markAll_spec fs cwd (which fs cwd d.bbpath fn).2 st.mc d hmc
    have hkey2 : RKey.mk fn false
          (markAll fs cwd (which fs cwd d.bbpath fn).2 st.mc d).2.bbpath =
        RKey.mk fn false d.bbpath := by
      rw [h2]
    have hhit2 : lruLookup
        (lruInsert RESOLVE_CACHE_MAX st.cache (RKey.mk fn false d.bbpath)
          (which fs cwd d.bbpath fn))
        (RKey.mk fn false
          (markAll fs cwd (which fs cwd d.bbpath fn).2 st.mc d).2.bbpath) =
        some ((which fs cwd d.bbpath fn).1, (which fs cwd d.bbpath fn).2) := by
      rw [hkey2]
      exact lruLookup_insert_self RESOLVE_CACHE_MAX st.cache _ _ (by decide) horder
    rw [resolve_file_rel_hit fs cwd fn _ _ _ _ habs hhit2]
    obtain ⟨g1, g2, g3⟩ := markAll_spec fs cwd (which fs cwd d.bbpath fn).2
      (markAll fs cwd (which fs cwd d.bbpath fn).2 st.mc d).1
      (markAll fs cwd (which fs cwd d.bbpath fn).2 st.mc d).2 h3
    refine ⟨?_, ?_, ?_⟩
    · rw [g1, h1]
      exact depAppendAll_idem fs cwd d.depends (which fs cwd d.bbpath fn).2
    · show resolveVerdict fs fn
        (markAll fs cwd (which fs cwd d.bbpath fn).2 st.mc d).2.bbpath
        (which fs cwd d.bbpath fn).1 = _
      rw [h2]
    · intro hdeps
      constructor
      · rw [h1, hdeps]
        exact depAppendAll_fst_nodup fs cwd (which fs cwd d.bbpath fn).2
      · intro af haf
        simp [habs] at haf
        rw [h1, hdeps]
        exact List.mem_map_of_mem Prod.fst (depAppendAll_self_mem fs cwd [] haf)

/-- C2 witness: the theorem applied at a concrete input. -/
theorem resolve_file_depends_idempotent_witness :
    ((resolve_file fsW2 "/w" false "foo.conf"
        (resolve_file fsW2 "/w" false "foo.conf"
          { mc := [], cache := lruEmpty } { depends := [], bbpath := "/a:/b" }).2.1
        (resolve_file fsW2 "/w" false "foo.conf"
          { mc := [], cache := lruEmpty } { depends := [], bbpath := "/a:/b" }).2.2).2.2).depends =
      ((resolve_file fsW2 "/w" false "foo.conf"
        { mc := [], cache := lruEmpty } { depends := [], bbpath := "/a:/b" }).2.2).depends ∧
    (resolve_file fsW2 "/w" false "foo.conf"
        (resolve_file fsW2 "/w" false "foo.conf"
          { mc := [], cache := lruEmpty } { depends := [], bbpath := "/a:/b" }).2.1
        (resolve_file fsW2 "/w" false "foo.conf"
          { mc := [], cache := lruEmpty } { depends := [], bbpath := "/a:/b" }).2.2).1 =
      (resolve_file fsW2 "/w" false "foo.conf"
        { mc := [], cache := lruEmpty } { depends := [], bbpath := "/a:/b" }).1 ∧
    (((resolve_file fsW2 "/w" false "foo.conf"
        { mc := [], cache := lruEmpty }
        { depends := [], bbpath := "/a:/b" }).2.2).depends.map Prod.fst).Nodup ∧
    markedName "/w" "/b/foo.conf" ∈
      ((resolve_file fsW2 "/w" false "foo.conf"
        { mc := [], cache := lruEmpty }
        { depends := [], bbpath := "/a:/b" }).2.2).depends.map Prod.fst := by
  have h := resolve_file_depends_idempotent fsW2 "/w" "foo.conf"
    { mc := [], cache := lruEmpty } { depends := [], bbpath := "/a:/b" }
    (mcConsistent_nil fsW2) rfl (by simp [lruEmpty])
  exact ⟨h.1, h.2.1, (h.2.2 rfl).1, (h.2.2 rfl).2 "/b/foo.conf" (by decide)⟩

/-! ## Claim C7: the two failure kinds of resolve_file -/

/-- C7 counterexample.  The claim says the not-a-file kind fires exactly when
the resolved candidate exists but is not a regular file, and the not-found
kind exactly when no candidate exists.  On the code both raise sites are
`IOError(errno.ENOENT)`; the second site (message `file %s not found`, the
only site that fires on an existing non-regular path) also fires for an
absolute name that does not exist at all: on an empty filesystem
`resolve_file("/missing.conf")` raises the second kind although no candidate
exists, and on a filesystem where `/somedir` is a directory the very same
kind is raised — the two situations are not distinguished. -/
theorem resolve_file_error_kinds_cex :
    (resolve_file { stat := fun _ => none, ls := fun _ => none } "/cwd" false
        "/missing.conf" { mc := [], cache := lruEmpty }
        { depends := [], bbpath := "/a" }).1 =
      Except.error (RErr.notFound "/missing.conf") ∧
    (resolve_file
        { stat := fun f => if f = "/somedir" then
            some { kind := FKind.directory, stamp := { mtimeNs := 1, size := 1, ino := 1 } }
          else none,
          ls := fun _ => none } "/cwd" false
        "/somedir" { mc := [], cache := lruEmpty }
        { depends := [], bbpath := "/a" }).1 =
      Except.error (RErr.notFound "/somedir") := by
  constructor
  · rfl
  · rfl

/-- C7 (amended): `resolve_file` has two `IOError(ENOENT)` raise sites.  The
first (`file fn not found in bbpath`) fires exactly when the name is relative
and the search-path walk finds no existing candidate; the second (`file fn
not found`) fires exactly when that is not the case and the final path — the
walk's winner for a relative name, the name itself for an absolute one — is
not a regular file, which covers both an absolute path that does not exist
and a resolved path that exists but is not a regular file; otherwise the
final path is returned.  Attempts are marked as dependencies in every
case. -/
theorem resolve_file_error_kinds (fs : FsT) (cwd fn : String) (st : RState) (d : DStore)
    (hmc : mcConsistent fs st.mc)
    (hfresh : lruLookup st.cache { fn := fn, isAbsolute := false, bbpath := d.bbpath } = none) :
    ((resolve_file fs cwd false fn st d).1 =
        Except.error (RErr.notFoundIn fn d.bbpath) ↔
      (isabs fn = false ∧ (which fs cwd d.bbpath fn).1 = "")) ∧
    ((resolve_file fs cwd false fn st d).1 =
        Except.error (RErr.notFound
          (if isabs fn then fn else (which fs cwd d.bbpath fn).1)) ↔
      (¬ (isabs fn = false ∧ (which fs cwd d.bbpath fn).1 = "") ∧
       isRegular fs (if isabs fn then fn else (which fs cwd d.bbpath fn).1) = false)) ∧
    ((resolve_file fs cwd false fn st d).1 =
        Except.ok (if isabs fn then fn else (which fs cwd d.bbpath fn).1) ↔
      (¬ (isabs fn = false ∧ (which fs cwd d.bbpath fn).1 = "") ∧
       isRegular fs (if isabs fn then fn else (which fs cwd d.bbpath fn).1) = true)) ∧
    (resolve_file fs cwd false fn st d).2.2.depends =
      depAppendAll fs cwd d.depends
        (if isabs fn then [fn] else (which fs cwd d.bbpath fn).2) := by
  cases habs : isabs fn with
  | true =>
    rw [resolve_file_abs fs cwd fn st d habs]
    obtain ⟨h1, h2, h3⟩ := mark_dependency_spec fs cwd fn st.mc d hmc
    refine ⟨?_, ?_, ?_, ?_⟩
    · cases hreg : isRegular fs fn <;> simp [hreg]
    · cases hreg : isRegular fs fn <;> simp [hreg]
    · cases hreg : isRegular fs fn <;> simp [hreg]
    · rw [h1]
      rfl
  | false =>
    rw [resolve_file_rel_miss fs cwd fn st d habs hfresh]
    obtain ⟨h1, h2, h3⟩ := markAll_spec fs cwd (which fs cwd d.bbpath fn).2 st.mc d hmc
    by_cases hempty : (which fs cwd d.bbpath fn).1 = ""
    · refine ⟨?_, ?_, ?_, ?_⟩
      · simp [resolveVerdict, hempty]
      · simp [resolveVerdict, hempty]
      · simp [resolveVerdict, hempty]
      · rw [h1]
        rfl
    · refine ⟨?_, ?_, ?_, ?_⟩
      · cases hreg : isRegular fs (which fs cwd d.bbpath fn).1 <;>
          simp [resolveVerdict, hempty, hreg]
      · cases hreg : isRegular fs (which fs cwd d.bbpath fn).1 <;>
          simp [resolveVerdict, hempty, hreg]
      · cases hreg : isRegular fs (which fs cwd d.bbpath fn).1 <;>
          simp [resolveVerdict, hempty, hreg]
      · rw [h1]
        rfl

/-- C7 witness: the amended theorem applied at a concrete input. -/
theorem resolve_file_error_kinds_witness :
    ((resolve_file fsW7 "/w" false "inc.conf" { mc := [], cache := lruEmpty }
        { depends := [], bbpath := "/q" }).1 =
        Except.error (RErr.notFoundIn "inc.conf" "/q") ↔
      (isabs "inc.conf" = false ∧ (which fsW7 "/w" "/q" "inc.conf").1 = "")) ∧
    ((resolve_file fsW7 "/w" false "inc.conf" { mc := [], cache := lruEmpty }
        { depends := [], bbpath := "/q" }).1 =
        Except.error (RErr.notFound
          (if isabs "inc.conf" then "inc.conf" else (which fsW7 "/w" "/q" "inc.conf").1)) ↔
      (¬ (isabs "inc.conf" = false ∧ (which fsW7 "/w" "/q" "inc.conf").1 = "") ∧
       isRegular fsW7
         (if isabs "inc.conf" then "inc.conf"
          else (which fsW7 "/w" "/q" "inc.conf").1) = false)) ∧
    ((resolve_file fsW7 "/w" false "inc.conf" { mc := [], cache := lruEmpty }
        { depends := [], bbpath := "/q" }).1 =
        Except.ok (if isabs "inc.conf" then "inc.conf"
                   else (which fsW7 "/w" "/q" "inc.conf").1) ↔
      (¬ (isabs "inc.conf" = false ∧ (which fsW7 "/w" "/q" "inc.conf").1 = "") ∧
       isRegular fsW7
         (if isabs "inc.conf" then "inc.conf"
          else (which fsW7 "/w" "/q" "inc.conf").1) = true)) ∧
    (resolve_file fsW7 "/w" false "inc.conf" { mc := [], cache := lruEmpty }
        { depends := [], bbpath := "/q" }).2.2.depends =
      depAppendAll fsW7 "/w" ({ depends := [], bbpath := "/q" } : DStore).depends
        (if isabs "inc.conf" then ["inc.conf"] else (which fsW7 "/w" "/q" "inc.conf").2) :=
  resolve_file_error_kinds fsW7 "/w" "inc.conf" { mc := [], cache := lruEmpty }
    { depends := [], bbpath := "/q" } (mcConsistent_nil fsW7) rfl

/-! ## Claim C6: the resolver cache is a bounded LRU -/

theorem assocLookup_of_nodup {κ υ : Type} [DecidableEq κ] :
    ∀ (l : List (κ × υ)) (k : κ) (v : υ), (k, v) ∈ l → (l.map Prod.fst).Nodup →
    assocLookup l k = some v := by
  intro l
  induction l with
  | nil => intro k v hm _; simp at hm
  | cons p rest ih =>
    intro k v hm hnd
    simp only [List.map_cons] at hnd
    obtain ⟨hnotin, hndrest⟩ := List.nodup_cons.mp hnd
    rcases List.mem_cons.mp hm with he | hr
    · rw [← he]
      simp [assocLookup]
    · have hk : ¬ (p.1 = k) := by
        intro he2
        apply hnotin
        rw [he2]
        exact List.mem_map_of_mem Prod.fst hr
      simp [assocLookup, hk]
      exact ih k v hr hndrest

theorem assocLookup_not_mem {κ υ : Type} [DecidableEq κ] :
    ∀ (l : List (κ × υ)) (k : κ), k ∉ l.map Prod.fst → assocLookup l k = none := by
  intro l
  induction l with
  | nil => intro k _; rfl
  | cons p rest ih =>
    intro k hk
    simp only [List.map_cons] at hk
    have h1 : ¬ (p.1 = k) := by
      intro he
      exact hk (by rw [← he]; exact List.mem_cons_self _ _)
    simp [assocLookup, h1]
    exact ih k (fun hm => hk (List.mem_cons_of_mem _ hm))

theorem foldPut_fresh {κ υ : Type} [DecidableEq κ] :
    ∀ (ps : List (κ × υ)) (e : List (κ × υ)),
    (∀ p ∈ ps, assocLookup e p.1 = none) → (ps.map Prod.fst).Nodup →
    ps.foldl (fun acc p => assocPut acc p.1 p.2) e = e ++ ps := by
  intro ps
  induction ps with
  | nil => intro e _ _; simp
  | cons p rest ih =>
    intro e hfresh hnd
    simp only [List.map_cons] at hnd
    obtain ⟨hnotin, hnd2⟩ := List.nodup_cons.mp hnd
    have h1 : assocPut e p.1 p.2 = e ++ [p] := by
      unfold assocPut
      rw [hfresh p (by simp)]
      simp
    have hfresh2 : ∀ q ∈ rest, assocLookup (e ++ [p]) q.1 = none := by
      intro q hq
      rw [assocLookup_append, hfresh q (by simp [hq])]
      have hne : ¬ (p.1 = q.1) := by
        intro he
        exact hnotin (he ▸ List.mem_map_of_mem Prod.fst hq)
      simp [assocLookup, hne]
    show List.foldl (fun acc p => assocPut acc p.1 p.2) (assocPut e p.1 p.2) rest = _
    rw [h1, ih (e ++ [p]) hfresh2 hnd2]
    simp

theorem lruInsertAll_no_evict {κ υ : Type} [DecidableEq κ] (cap : Nat) :
    ∀ (ps : List (κ × υ)) (c : Lru κ υ),
    c.order.length + ps.length ≤ cap →
    lruInsertAll cap c ps =
      { entries := ps.foldl (fun e p => assocPut e p.1 p.2) c.entries,
        order := c.order ++ ps.map Prod.fst,
        evictions := c.evictions } := by
  intro ps
  induction ps with
  | nil => intro c _; simp [lruInsertAll]
  | cons p rest ih =>
    intro c h
    have hlen : ¬ ((c.order ++ [p.1]).length > cap) := by
      simp
      simp at h
      omega
    have hstep : lruInsert cap c p.1 p.2 =
        { entries := assocPut c.entries p.1 p.2, order := c.order ++ [p.1],
          evictions := c.evictions } := by
      simp only [lruInsert]
      rw [if_neg hlen]
    show lruInsertAll cap (lruInsert cap c p.1 p.2) rest = _
    rw [hstep, ih _ (by simp; simp at h; omega)]
    simp

theorem lruInsert_evict {κ υ : Type} [DecidableEq κ] (cap : Nat) (c : Lru κ υ) (k : κ)
    (v : υ) (hfull : c.order.length = cap) (o : κ) (rest : List κ)
    (ho : c.order = o :: rest) :
    lruInsert cap c k v =
      { entries := assocDrop (assocPut c.entries k v) o,
        order := rest ++ [k], evictions := c.evictions + 1 } := by
  simp only [lruInsert]
  have hlen : (c.order ++ [k]).length > cap := by simp [hfull]
  rw [if_pos hlen, ho]
  rfl

/-- The N+1 distinct insertions scenario of C6: inserting `cap + 1` distinct
keys into an empty LRU of capacity `cap` records exactly one eviction, drops
the first (least recently used) key, and keeps the most recent `cap` keys
with their values, in insertion order. -/
theorem lru_fill_bound {κ υ : Type} [DecidableEq κ] (cap : Nat) (k0 : κ) (v0 : υ)
    (mid : List (κ × υ)) (kl : κ) (vl : υ)
    (hcap : cap = mid.length + 1)
    (hnd : ((k0 :: mid.map Prod.fst) ++ [kl]).Nodup) :
    (lruInsertAll cap lruEmpty (((k0, v0) :: mid) ++ [(kl, vl)])).evictions = 1 ∧
    lruLookup (lruInsertAll cap lruEmpty (((k0, v0) :: mid) ++ [(kl, vl)])) k0 = none ∧
    (∀ p ∈ mid ++ [(kl, vl)],
      lruLookup (lruInsertAll cap lruEmpty (((k0, v0) :: mid) ++ [(kl, vl)])) p.1 =
        some p.2) ∧
    (lruInsertAll cap lruEmpty (((k0, v0) :: mid) ++ [(kl, vl)])).order =
      (mid ++ [(kl, vl)]).map Prod.fst := by
  have hA : (k0 :: mid.map Prod.fst).Nodup := hnd.of_append_left
  have hdisj := List.disjoint_of_nodup_append hnd
  have hB : kl ∉ k0 :: mid.map Prod.fst := by
    intro hm
    exact hdisj hm (by simp)
  obtain ⟨hC, hD⟩ := List.nodup_cons.mp hA
  have hndFill : (((k0, v0) :: mid).map Prod.fst).Nodup := by
    simp only [List.map_cons]
    exact hA
  have hndE : ((((k0, v0) :: mid) ++ [(kl, vl)]).map Prod.fst).Nodup := by
    simp only [List.map_append, List.map_cons, List.map_nil]
    exact hnd
  have hsplit : lruInsertAll cap lruEmpty (((k0, v0) :: mid) ++ [(kl, vl)]) =
      lruInsert cap (lruInsertAll cap lruEmpty ((k0, v0) :: mid)) kl vl := by
    simp [lruInsertAll]
  have hfill := lruInsertAll_no_evict cap ((k0, v0) :: mid) lruEmpty
    (by simp [lruEmpty, hcap])
  have hentries : List.foldl (fun e p => assocPut e p.1 p.2)
      (lruEmpty : Lru κ υ).entries ((k0, v0) :: mid) = (k0, v0) :: mid := by
    have := foldPut_fresh ((k0, v0) :: mid) [] (by intro p _; rfl) hndFill
    simpa [lruEmpty] using this
  rw [hsplit, hfill]
  have hklfresh : assocLookup ((k0, v0) :: mid) kl = none := by
    apply assocLookup_not_mem
    simp only [List.map_cons]
    exact hB
  have hput : assocPut ((k0, v0) :: mid) kl vl = ((k0, v0) :: mid) ++ [(kl, vl)] := by
    unfold assocPut
    rw [hklfresh]
    simp
  have hev := lruInsert_evict cap
    { entries := List.foldl (fun e p => assocPut e p.1 p.2)
        (lruEmpty : Lru κ υ).entries ((k0, v0) :: mid),
      order := (lruEmpty : Lru κ υ).order ++ ((k0, v0) :: mid).map Prod.fst,
      evictions := (lruEmpty : Lru κ υ).evictions } kl vl
    (by simp [lruEmpty, hcap]) k0 (mid.map Prod.fst) (by simp [lruEmpty])
  rw [hev]
  refine ⟨rfl, ?_, ?_, ?_⟩
  · show assocLookup (assocDrop _ k0) k0 = none
    rw [assocLookup_drop]
    simp
  · intro p hp
    show assocLookup (assocDrop _ k0) p.1 = some p.2
    rw [assocLookup_drop]
    have hpk0 : ¬ (p.1 = k0) := by
      rcases List.mem_append.mp hp with hm | hl
      · intro he
        exact hC (he ▸ List.mem_map_of_mem Prod.fst hm)
      · simp at hl
        intro he
        apply hB
        rw [← he, hl]
        exact List.mem_cons_self _ _
    rw [if_neg hpk0, hentries, hput]
    apply assocLookup_of_nodup
    · show (p.1, p.2) ∈ ((k0, v0) :: mid) ++ [(kl, vl)]
      rcases List.mem_append.mp hp with hm | hl
      · exact List.mem_append_left _ (List.mem_cons_of_mem _ hm)
      · simp at hl
        simp [hl]
    · exact hndE
  · show mid.map Prod.fst ++ [kl] = _
    simp

/-- The hit-refresh scenario of C6: fill an LRU of capacity `cap` with `cap`
distinct keys, hit the oldest key (refreshing its recency), then insert a
fresh key: the eviction victim is the second-oldest key, not the hit one. -/
theorem lru_hit_refresh {κ υ : Type} [DecidableEq κ] (cap : Nat) (k0 : κ) (v0 : υ)
    (k1 : κ) (v1 : υ) (rest : List (κ × υ)) (k2 : κ) (v2 : υ)
    (hcap : cap = rest.length + 2)
    (hnd : (k0 :: k1 :: rest.map Prod.fst).Nodup)
    (hk2 : k2 ∉ k0 :: k1 :: rest.map Prod.fst) :
    (lruInsert cap
      (lruRefresh (lruInsertAll cap lruEmpty ((k0, v0) :: (k1, v1) :: rest)) k0)
      k2 v2).evictions = 1 ∧
    lruLookup (lruInsert cap
      (lruRefresh (lruInsertAll cap lruEmpty ((k0, v0) :: (k1, v1) :: rest)) k0)
      k2 v2) k0 = some v0 ∧
    lruLookup (lruInsert cap
      (lruRefresh (lruInsertAll cap lruEmpty ((k0, v0) :: (k1, v1) :: rest)) k0)
      k2 v2) k1 = none ∧
    lruLookup (lruInsert cap
      (lruRefresh (lruInsertAll cap lruEmpty ((k0, v0) :: (k1, v1) :: rest)) k0)
      k2 v2) k2 = some v2 := by
  have hndv : (((k0, v0) :: (k1, v1) :: rest).map Prod.fst).Nodup := by
    simp only [List.map_cons]
    exact hnd
  have hfill := lruInsertAll_no_evict cap ((k0, v0) :: (k1, v1) :: rest) lruEmpty
    (by simp [lruEmpty, hcap])
  have hentries : List.foldl (fun e p => assocPut e p.1 p.2)
      (lruEmpty : Lru κ υ).entries ((k0, v0) :: (k1, v1) :: rest) =
      (k0, v0) :: (k1, v1) :: rest := by
    have := foldPut_fresh ((k0, v0) :: (k1, v1) :: rest) [] (by intro p _; rfl) hndv
    simpa [lruEmpty] using this
  rw [hfill]
  have hrefresh : lruRefresh
      { entries := List.foldl (fun e p => assocPut e p.1 p.2)
          (lruEmpty : Lru κ υ).entries ((k0, v0) :: (k1, v1) :: rest),
        order := (lruEmpty : Lru κ υ).order ++
          ((k0, v0) :: (k1, v1) :: rest).map Prod.fst,
        evictions := (lruEmpty : Lru κ υ).evictions } k0 =
      { entries := List.foldl (fun e p => assocPut e p.1 p.2)
          (lruEmpty : Lru κ υ).entries ((k0, v0) :: (k1, v1) :: rest),
        order := (k1 :: rest.map Prod.fst) ++ [k0],
        evictions := (lruEmpty : Lru κ υ).evictions } := by
    simp [lruRefresh, lruEmpty, keyErase]
  rw [hrefresh]
  have hev := lruInsert_evict cap
    { entries := List.foldl (fun e p => assocPut e p.1 p.2)
        (lruEmpty : Lru κ υ).entries ((k0, v0) :: (k1, v1) :: rest),
      order := (k1 :: rest.map Prod.fst) ++ [k0],
      evictions := (lruEmpty : Lru κ υ).evictions } k2 v2
    (by simp [lruEmpty, hcap]) k1 (rest.map Prod.fst ++ [k0]) (by simp)
  rw [hev]
  have hk2fresh : assocLookup ((k0, v0) :: (k1, v1) :: rest) k2 = none := by
    apply assocLookup_not_mem
    simp only [List.map_cons]
    exact hk2
  have hput : assocPut ((k0, v0) :: (k1, v1) :: rest) k2 v2 =
      ((k0, v0) :: (k1, v1) :: rest) ++ [(k2, v2)] := by
    unfold assocPut
    rw [hk2fresh]
    simp
  have hndE : ((((k0, v0) :: (k1, v1) :: rest) ++ [(k2, v2)]).map Prod.fst).Nodup := by
    simp only [List.map_append, List.map_cons, List.map_nil]
    refine List.Nodup.append hnd (List.nodup_singleton _) ?_
    intro a ha hb
    simp at hb
    rw [hb] at ha
    exact hk2 ha
  obtain ⟨hk0notin, hndtail⟩ := List.nodup_cons.mp hnd
  have hk01 : ¬ (k0 = k1) := by
    intro he
    exact hk0notin (by rw [he]; exact List.mem_cons_self _ _)
  have hk21 : ¬ (k2 = k1) := by
    intro he
    exact hk2 (by rw [he]; exact List.mem_cons_of_mem _ (List.mem_cons_self _ _))
  refine ⟨rfl, ?_, ?_, ?_⟩
  · show assocLookup (assocDrop _ k1) k0 = some v0
    rw [assocLookup_drop, if_neg hk01, hentries, hput]
    exact assocLookup_of_nodup _ k0 v0 (by simp) hndE
  · show assocLookup (assocDrop _ k1) k1 = none
    rw [assocLookup_drop]
    simp
  · show assocLookup (assocDrop _ k1) k2 = some v2
    rw [assocLookup_drop, if_neg hk21, hentries, hput]
    exact assocLookup_of_nodup _ k2 v2 (by simp) hndE

/-- C6: the resolver result cache is an LRU bounded at
`_RESOLVE_CACHE_MAX = 8192`, keyed by the `(requested_name, is_absolute,
search_path_string)` triple (`RKey`, as built by `resolve_file`): inserting
N+1 distinct keys into an LRU of capacity N records exactly one eviction,
drops the least-recently-used key and keeps the most recent N; a cache hit
refreshes the key's recency, so after hitting the oldest key the next
eviction victim is the second-oldest key instead. -/
theorem resolve_cache_lru_bound :
    RESOLVE_CACHE_MAX = 8192 ∧
    (∀ (κ υ : Type) [DecidableEq κ] (cap : Nat) (k0 : κ) (v0 : υ)
      (mid : List (κ × υ)) (kl : κ) (vl : υ),
      cap = mid.length + 1 → ((k0 :: mid.map Prod.fst) ++ [kl]).Nodup →
      (lruInsertAll cap lruEmpty (((k0, v0) :: mid) ++ [(kl, vl)])).evictions = 1 ∧
      lruLookup (lruInsertAll cap lruEmpty (((k0, v0) :: mid) ++ [(kl, vl)])) k0 = none ∧
      (∀ p ∈ mid ++ [(kl, vl)],
        lruLookup (lruInsertAll cap lruEmpty (((k0, v0) :: mid) ++ [(kl, vl)])) p.1 =
          some p.2) ∧
      (lruInsertAll cap lruEmpty (((k0, v0) :: mid) ++ [(kl, vl)])).order =
        (mid ++ [(kl, vl)]).map Prod.fst) ∧
    (∀ (κ υ : Type) [DecidableEq κ] (cap : Nat) (k0 : κ) (v0 : υ) (k1 : κ) (v1 : υ)
      (rest : List (κ × υ)) (k2 : κ) (v2 : υ),
      cap = rest.length + 2 → (k0 :: k1 :: rest.map Prod.fst).Nodup →
      k2 ∉ k0 :: k1 :: rest.map Prod.fst →
      (lruInsert cap
        (lruRefresh (lruInsertAll cap lruEmpty ((k0, v0) :: (k1, v1) :: rest)) k0)
        k2 v2).evictions = 1 ∧
      lruLookup (lruInsert cap
        (lruRefresh (lruInsertAll cap lruEmpty ((k0, v0) :: (k1, v1) :: rest)) k0)
        k2 v2) k0 = some v0 ∧
      lruLookup (lruInsert cap
        (lruRefresh (lruInsertAll cap lruEmpty ((k0, v0) :: (k1, v1) :: rest)) k0)
        k2 v2) k1 = none ∧
      lruLookup (lruInsert cap
        (lruRefresh (lruInsertAll cap lruEmpty ((k0, v0) :: (k1, v1) :: rest)) k0)
        k2 v2) k2 = some v2) := by
  refine ⟨rfl, ?_, ?_⟩
  · intro κ υ inst cap k0 v0 mid kl vl hcap hnd
    exact lru_fill_bound cap k0 v0 mid kl vl hcap hnd
  · intro κ υ inst cap k0 v0 k1 v1 rest k2 v2 hcap hnd hk2
    exact lru_hit_refresh cap k0 v0 k1 v1 rest k2 v2 hcap hnd hk2

/-- C6 witness: both scenarios applied at concrete inputs (capacity 2,
natural-number keys and values). -/
theorem resolve_cache_lru_bound_witness :
    (lruInsertAll 2 (lruEmpty : Lru Nat Nat) [(10, 1), (11, 2), (12, 3)]).evictions = 1 ∧
    lruLookup (lruInsertAll 2 (lruEmpty : Lru Nat Nat) [(10, 1), (11, 2), (12, 3)]) 10 =
      none ∧
    lruLookup (lruInsertAll 2 (lruEmpty : Lru Nat Nat) [(10, 1), (11, 2), (12, 3)]) 11 =
      some 2 ∧
    lruLookup (lruInsertAll 2 (lruEmpty : Lru Nat Nat) [(10, 1), (11, 2), (12, 3)]) 12 =
      some 3 ∧
    (lruInsertAll 2 (lruEmpty : Lru Nat Nat) [(10, 1), (11, 2), (12, 3)]).order =
      [11, 12] ∧
    (lruInsert 2
      (lruRefresh (lruInsertAll 2 (lruEmpty : Lru Nat Nat) [(10, 1), (11, 2)]) 10)
      12 3).evictions = 1 ∧
    lruLookup (lruInsert 2
      (lruRefresh (lruInsertAll 2 (lruEmpty : Lru Nat Nat) [(10, 1), (11, 2)]) 10)
      12 3) 10 = some 1 ∧
    lruLookup (lruInsert 2
      (lruRefresh (lruInsertAll 2 (lruEmpty : Lru Nat Nat) [(10, 1), (11, 2)]) 10)
      12 3) 11 = none ∧
    lruLookup (lruInsert 2
      (lruRefresh (lruInsertAll 2 (lruEmpty : Lru Nat Nat) [(10, 1), (11, 2)]) 10)
      12 3) 12 = some 3 := by
  have h1 := resolve_cache_lru_bound.2.1 Nat Nat 2 10 1 [(11, 2)] 12 3 rfl (by decide)
  have h2 := resolve_cache_lru_bound.2.2 Nat Nat 2 10 1 11 2 [] 12 3 rfl
    (by decide) (by decide)
  exact ⟨h1.1, h1.2.1, h1.2.2.1 (11, 2) (by decide), h1.2.2.1 (12, 3) (by decide),
    h1.2.2.2, h2.1, h2.2.1, h2.2.2.1, h2.2.2.2⟩

/-! ## Claim C3: addtask lines and reserved keywords -/

theorem taskGroup_prefix {kw s g : String} (h : taskGroup kw s = some g) :
    prefixEq kw.data s.data = true := by
  unfold taskGroup at h
  cases hp : prefixEq kw.data s.data with
  | true => rfl
  | false => rw [hp] at h; simp at h

theorem addtask_head {s g : String} (h : taskGroup "addtask" s = some g) :
    ∃ t, s.data = 'a' :: t := by
  have hpre := taskGroup_prefix h
  have hkw : "addtask".data = 'a' :: "ddtask".data := rfl
  cases hd : s.data with
  | nil =>
    rw [hd, hkw] at hpre
    simp [prefixEq] at hpre
  | cons c t =>
    rw [hd, hkw] at hpre
    simp [prefixEq] at hpre
    exact ⟨t, by rw [hpre.1]⟩

/-- C3 counterexample.  The claim (and scenario S5 of the spec) says the line
`addtask do_x_append` raises `ParseError`.  On the code the keyword scan
tests whether a token contains `keyword + "_"` — `append_`, `prepend_`,
`remove_` — as a substring; `do_x_append` ends in `append` with no trailing
underscore, contains none of them, and the feeder emits the AddTask node
`AddTask(["do_x_append"])` instead of raising. -/
theorem feeder_addtask_keyword_cex :
    feeder "addtask do_x_append" = FeedOut.addTask "do_x_append" "" "" := by
  decide

/-- C3 (amended): in the addtask branch the feeder raises `ParseError`
exactly when some whitespace-separated token of the whole line contains
`keyword + "_"` (for `keyword` in the shared set `append`, `prepend`,
`remove`) as a substring — the raised error carries the first such token —
and otherwise emits the AddTask node with the ` before `/` after ` split of
the task expression; in particular `addtask do_x_append` parses, while
`addtask do_append_x` raises. -/
theorem feeder_addtask_keyword_amended (s g : String)
    (hbs : sEnds s "\\" = false)
    (hfn : funcStartMatch s = false)
    (hdf : defMatch s = false)
    (hex : kwArgMatch "EXPORT_FUNCTIONS" s = none)
    (hat : taskGroup "addtask" s = some g) :
    (∀ te, taskKwViolation s = some te → feeder s = FeedOut.parseErr te) ∧
    (taskKwViolation s = none →
      feeder s = FeedOut.addTask (tasksOf g) (beforeOf g) (afterOf g)) ∧
    ((∃ te, feeder s = FeedOut.parseErr te) ↔
      (∃ te ∈ pySplit s,
        SETVAR_KEYWORDS.any (fun kw => strContains te (kw ++ "_")) = true)) := by
  obtain ⟨t, hd⟩ := addtask_head hat
  have hne : ¬ (s = "") := by
    intro he
    rw [he] at hd
    simp at hd
  have hhash : (match s.data with | c :: _ => decide (c = '#') | [] => false) = false := by
    rw [hd]
    show decide (('a' : Char) = '#') = false
    decide
  have hfeed : feeder s =
      (match taskKwViolation s with
       | some te => FeedOut.parseErr te
       | none => FeedOut.addTask (tasksOf g) (beforeOf g) (afterOf g)) := by
    unfold feeder
    rw [hbs, hhash, hfn, hdf, hex, hat]
    simp [hne]
  refine ⟨?_, ?_, ?_⟩
  · intro te hv
    rw [hfeed, hv]
  · intro hv
    rw [hfeed, hv]
  · constructor
    · intro ⟨te, hte⟩
      cases hv : taskKwViolation s with
      | some te2 =>
        refine ⟨te2, List.mem_of_find?_eq_some hv, ?_⟩
        have := List.find?_some hv
        simpa using this
      | none =>
        rw [hfeed, hv] at hte
        simp at hte
    · intro ⟨te, hmem, hpred⟩
      cases hv : taskKwViolation s with
      | some te2 =>
        exact ⟨te2, by rw [hfeed, hv]⟩
      | none =>
        have := List.find?_eq_none.mp hv te hmem
        simp [hpred] at this
  
/-- C3 witness: the amended theorem applied at the two literal lines
`addtask do_append_x` (a token embeds `append_`, so the feeder raises) and
`addtask do_x_y` (no keyword, so an AddTask node is emitted). -/
theorem feeder_addtask_keyword_amended_witness :
    feeder "addtask do_append_x" = FeedOut.parseErr "do_append_x" ∧
    feeder "addtask do_x_y" =
      FeedOut.addTask (tasksOf "do_x_y") (beforeOf "do_x_y") (afterOf "do_x_y") := by
  have h1 := feeder_addtask_keyword_amended "addtask do_append_x" "do_append_x"
    (by decide) (by decide) (by decide) (by decide) (by decide)
  have h2 := feeder_addtask_keyword_amended "addtask do_x_y" "do_x_y"
    (by decide) (by decide) (by decide) (by decide) (by decide)
  exact ⟨h1.1 "do_append_x" (by decide), h2.2.1 (by decide)⟩

/-! ## Claim C4: a class is inherited at most once per datastore -/

theorem cnt_append (a : String) (l r : List String) :
    cnt a (l ++ r) = cnt a l + cnt a r := by
  induction l with
  | nil => simp [cnt]
  | cons b t ih => simp [cnt, ih]; omega

theorem cnt_eq_zero_of_not_mem {a : String} {l : List String} (h : a ∉ l) :
    cnt a l = 0 := by
  induction l with
  | nil => rfl
  | cons b t ih =>
    have hb : ¬ (b = a) := by
      intro he
      exact h (by rw [← he]; exact List.mem_cons_self _ _)
    simp [cnt, hb]
    exact ih (fun hm => h (List.mem_cons_of_mem _ hm))

/-- Once `f` is in `__inherit_cache`, no inherit or class-body evaluation
adds another copy of `f` to the cache or dispatches `f` again. -/
theorem inherit_stable (env : String → List String) (pex : String → Bool) (f : String) :
    ∀ fuel : Nat,
      (∀ (g : String) (st st2 : IState), f ∈ st.cache →
        inheritRun env pex fuel g st = Except.ok st2 →
        cnt f st2.cache = cnt f st.cache ∧ cnt f st2.log = cnt f st.log ∧ f ∈ st2.cache) ∧
      (∀ (gs : List String) (st st2 : IState), f ∈ st.cache →
        exceptSeq (inheritRun env pex fuel) gs st = Except.ok st2 →
        cnt f st2.cache = cnt f st.cache ∧ cnt f st2.log = cnt f st.log ∧ f ∈ st2.cache) := by
  intro fuel
  induction fuel with
  | zero =>
    constructor
    · intro g st st2 hf h
      simp only [inheritRun] at h
      simp at h
      rw [← h]
      exact ⟨rfl, rfl, hf⟩
    · intro gs
      induction gs with
      | nil =>
        intro st st2 hf h
        simp only [exceptSeq] at h
        simp at h
        rw [← h]
        exact ⟨rfl, rfl, hf⟩
      | cons g rest ihg =>
        intro st st2 hf h
        simp only [exceptSeq, inheritRun] at h
        exact ihg st st2 hf h
  | succ fuel ih =>
    have hrun : ∀ (g : String) (st st2 : IState), f ∈ st.cache →
        inheritRun env pex (fuel + 1) g st = Except.ok st2 →
        cnt f st2.cache = cnt f st.cache ∧ cnt f st2.log = cnt f st.log ∧ f ∈ st2.cache := by
      intro g st st2 hf h
      simp only [inheritRun] at h
      by_cases hpex : pex g = false
      · rw [if_pos hpex] at h
        simp at h
      · rw [if_neg hpex] at h
        by_cases hmem : g ∈ st.cache
        · rw [if_pos hmem] at h
          simp at h
          rw [← h]
          exact ⟨rfl, rfl, hf⟩
        · rw [if_neg hmem] at h
          have hgin : g ∈ st.cache ++ [g] := by simp
          rw [if_pos hgin] at h
          have hgf : ¬ (g = f) := by
            intro he
            exact hmem (he ▸ hf)
          have hf2 : f ∈ ({ cache := st.cache ++ [g], log := st.log ++ [g] } : IState).cache :=
            List.mem_append_left _ hf
          obtain ⟨c1, c2, c3⟩ := ih.2 (env g)
            { cache := st.cache ++ [g], log := st.log ++ [g] } st2 hf2 h
          refine ⟨?_, ?_, c3⟩
          · rw [c1]
            show cnt f (st.cache ++ [g]) = cnt f st.cache
            rw [cnt_append]
            simp [cnt, hgf]
          · rw [c2]
            show cnt f (st.log ++ [g]) = cnt f st.log
            rw [cnt_append]
            simp [cnt, hgf]
    constructor
    · exact hrun
    · intro gs
      induction gs with
      | nil =>
        intro st st2 hf h
        simp only [exceptSeq] at h
        simp at h
        rw [← h]
        exact ⟨rfl, rfl, hf⟩
      | cons g rest ihg =>
        intro st st2 hf h
        simp only [exceptSeq] at h
        cases hr : inheritRun env pex (fuel + 1) g st with
        | error e => rw [hr] at h; simp at h
        | ok stm =>
          rw [hr] at h
          obtain ⟨c1, c2, c3⟩ := hrun g st stm hf hr
          obtain ⟨d1, d2, d3⟩ := ihg stm st2 c3 h
          exact ⟨by rw [d1, c1], by rw [d2, c2], d3⟩

/-- C4: on a datastore whose `__inherit_cache` does not yet contain the
resolved class file `f` (and whose ghost dispatcher log has no entry for it),
running the inherit loop body for `f` puts `f` into `__inherit_cache` exactly
once and invokes the recursive dispatcher (`bb.parse.handle`, which in
`BBHandler.handle` re-appends only if absent) on `f` exactly once — whatever
the class bodies inherit and whatever the recursion fuel — and every further
inherit of `f` on the resulting datastore is a no-op returning it
unchanged. -/
theorem inherit_dedup (env : String → List String) (pex : String → Bool) (f : String)
    (st : IState) (hpex : pex f = true) (hc : f ∉ st.cache) (hl : cnt f st.log = 0) :
    ∀ (fuel1 : Nat) (st1 : IState),
      inheritRun env pex (fuel1 + 1) f st = Except.ok st1 →
      cnt f st1.cache = 1 ∧ cnt f st1.log = 1 ∧
      (∀ fuel2, inheritRun env pex fuel2 f st1 = Except.ok st1) := by
  intro fuel1 st1 h
  have hne : ¬ (pex f = false) := by rw [hpex]; simp
  simp only [inheritRun] at h
  rw [if_neg hne, if_neg hc] at h
  have hfin : f ∈ st.cache ++ [f] := by simp
  rw [if_pos hfin] at h
  have hfST : f ∈ ({ cache := st.cache ++ [f], log := st.log ++ [f] } : IState).cache := by
    simp
  obtain ⟨c1, c2, c3⟩ := (inherit_stable env pex f fuel1).2 (env f)
    { cache := st.cache ++ [f], log := st.log ++ [f] } st1 hfST h
  have hcache : cnt f st1.cache = 1 := by
    rw [c1]
    show cnt f (st.cache ++ [f]) = 1
    rw [cnt_append, cnt_eq_zero_of_not_mem hc]
    simp [cnt]
  have hlog : cnt f st1.log = 1 := by
    rw [c2]
    show cnt f (st.log ++ [f]) = 1
    rw [cnt_append, hl]
    simp [cnt]
  refine ⟨hcache, hlog, ?_⟩
  intro fuel2
  cases fuel2 with
  | zero => rfl
  | succ n =>
    simp only [inheritRun]
    rw [if_neg hne, if_pos c3]

/-- C4 witness: the theorem applied at a concrete input (a class with an
empty body, fresh datastore, then re-inherited with various fuels). -/
theorem inherit_dedup_witness :
    cnt "base" (({ cache := ["base"], log := ["base"] } : IState).cache) = 1 ∧
    cnt "base" (({ cache := ["base"], log := ["base"] } : IState).log) = 1 ∧
    inheritRun (fun _ => []) (fun _ => true) 5 "base"
      { cache := ["base"], log := ["base"] } =
      Except.ok { cache := ["base"], log := ["base"] } := by
  have h := inherit_dedup (fun _ => []) (fun _ => true) "base"
    { cache := [], log := [] } rfl (by decide) rfl 0
    { cache := ["base"], log := ["base"] } (by decide)
  exact ⟨h.1, h.2.1, h.2.2 5⟩

/-! ## Claim C5: the recipe statement cache -/

/-- C5: the statement cache is populated only for files whose (passed)
filename ends in `.bbclass` or `.inc`: a first parse of such a file stores
its tree under the absolute filename and a second call returns that
identical cached tree with the cache unchanged; parsing any other file
(in particular a `.bb` recipe) never adds a cache entry. -/
theorem get_statements_cache_policy (α : Type) (parse : String → α)
    (filename absfn : String) (cache : List (String × α)) :
    ((sEnds filename ".bbclass" || sEnds filename ".inc") = true →
      assocLookup cache absfn = none →
      (assocLookup (get_statements parse filename absfn cache).2 absfn =
        some (get_statements parse filename absfn cache).1 ∧
       get_statements parse filename absfn (get_statements parse filename absfn cache).2 =
         ((get_statements parse filename absfn cache).1,
          (get_statements parse filename absfn cache).2))) ∧
    (sEnds filename ".bbclass" = false → sEnds filename ".inc" = false →
      (get_statements parse filename absfn cache).2 = cache) := by
  constructor
  · intro hsuf hfresh
    have hstep : get_statements parse filename absfn cache =
        (parse absfn, cache ++ [(absfn, parse absfn)]) := by
      unfold get_statements
      rw [hfresh, hsuf]
      rfl
    rw [hstep]
    have hlook : assocLookup (cache ++ [(absfn, parse absfn)]) absfn =
        some (parse absfn) := by
      rw [assocLookup_append, hfresh]
      simp [assocLookup]
    constructor
    · exact hlook
    · unfold get_statements
      rw [hlook]
  · intro h1 h2
    unfold get_statements
    cases hl : assocLookup cache absfn with
    | some t => rfl
    | none =>
      rw [h1, h2]
      rfl

/-- C5 witness: the theorem applied at concrete inputs — a `.inc` file is
cached and served back identically, and a `.bb` file adds no entry. -/
theorem get_statements_cache_policy_witness :
    (assocLookup
        (get_statements (fun _ => 5) "auto.inc" "/p/auto.inc"
          ([] : List (String × Nat))).2 "/p/auto.inc" =
      some (get_statements (fun _ => 5) "auto.inc" "/p/auto.inc"
        ([] : List (String × Nat))).1 ∧
     get_statements (fun _ => 5) "auto.inc" "/p/auto.inc"
        (get_statements (fun _ => 5) "auto.inc" "/p/auto.inc"
          ([] : List (String × Nat))).2 =
       ((get_statements (fun _ => 5) "auto.inc" "/p/auto.inc"
          ([] : List (String × Nat))).1,
        (get_statements (fun _ => 5) "auto.inc" "/p/auto.inc"
          ([] : List (String × Nat))).2)) ∧
    (get_statements (fun _ => 5) "recipe.bb" "/p/recipe.bb"
      ([] : List (String × Nat))).2 = [] :=
  ⟨(get_statements_cache_policy Nat (fun _ => 5) "auto.inc" "/p/auto.inc" []).1
      (by decide) rfl,
   (get_statements_cache_policy Nat (fun _ => 5) "recipe.bb" "/p/recipe.bb" []).2
      (by decide) (by decide)⟩

/-! ## Claim C8: self-include is a no-op -/

/-- C8: `include_single_file(f, f, …)` returns immediately: whatever the
filesystem, environment switches, recursive dispatcher, line number,
error-out verb and module state, the result is success with the datastore
and the whole module state (mtime cache, include caches, index, dispatcher
log) unchanged — no dependency is marked, no file is opened, the dispatcher
is not invoked. -/
theorem include_single_file_self_noop (fs : FsT) (cwd : String) (flags : EnvFlags)
    (hfn : String → DStore → CState → Except HErr (DStore × CState))
    (f : String) (lineno : Nat) (d : DStore) (errorOut : Option String) (st : CState) :
    include_single_file fs cwd flags hfn f f lineno d errorOut st =
      (Except.ok (), d, st) := by
  simp [include_single_file]

/-! ## Claim C9: cached_mtime stats only on a cache miss -/

/-- C9 counterexample.  The claim says `cached_mtime` performs a fresh stat
and stores the `(mtime_ns, size, inode)` triple on every call, even when the
path already has an entry.  On the code, with an existing entry
`("a", (1,1,1))` and the file's current stat `(2,2,2)`, the call returns the
stale cached triple, performs no stat (ghost flag `false`) and stores
nothing. -/
theorem cached_mtime_cex :
    cached_mtime
      { stat := fun f => if f = "a" then
          some { kind := FKind.regular, stamp := { mtimeNs := 2, size := 2, ino := 2 } }
        else none,
        ls := fun _ => none }
      "a" [("a", { mtimeNs := 1, size := 1, ino := 1 })] =
      (Except.ok { mtimeNs := 1, size := 1, ino := 1 },
       [("a", { mtimeNs := 1, size := 1, ino := 1 })], false) := by
  rfl

/-- C9 (amended): `cached_mtime` stats exactly when the path has no cache
entry: with an entry present it returns the stored triple without a stat and
leaves the cache unchanged; on a miss it stats, stores the fresh triple and
returns it, and a stat failure propagates without storing
(`update_mtime` is the operation that always stats and stores). -/
theorem cached_mtime_amended (fs : FsT) (f : String) (mc : List (String × Stamp)) :
    ((cached_mtime fs f mc).2.2 = true ↔ assocLookup mc f = none) ∧
    (∀ s, assocLookup mc f = some s →
      (cached_mtime fs f mc).1 = Except.ok s ∧ (cached_mtime fs f mc).2.1 = mc) ∧
    (∀ m, assocLookup mc f = none → fs.stat f = some m →
      (cached_mtime fs f mc).1 = Except.ok m.stamp ∧
      assocLookup (cached_mtime fs f mc).2.1 f = some m.stamp) ∧
    (assocLookup mc f = none → fs.stat f = none →
      (cached_mtime fs f mc).1 = Except.error () ∧ (cached_mtime fs f mc).2.1 = mc) := by
  unfold cached_mtime
  cases hl : assocLookup mc f with
  | some s =>
    refine ⟨by simp, ?_, ?_, ?_⟩
    · intro s2 hs2
      simp at hs2
      simp [hs2]
    · intro m hnone
      simp at hnone
    · intro hnone
      simp at hnone
  | none =>
    cases hstat : fs.stat f with
    | some m =>
      refine ⟨by simp, ?_, ?_, ?_⟩
      · intro s2 hs2
        simp at hs2
      · intro m2 _ hstat2
        simp at hstat2
        subst hstat2
        refine ⟨rfl, ?_⟩
        show assocLookup (mc ++ [(f, m.stamp)]) f = some m.stamp
        rw [assocLookup_append, hl]
        simp [assocLookup]
      · intro _ hstat2
        simp at hstat2
    | none =>
      refine ⟨by simp, ?_, ?_, ?_⟩
      · intro s2 hs2
        simp at hs2
      · intro m2 _ hstat2
        simp at hstat2
      · intro _ _
        exact ⟨rfl, rfl⟩

/-- C9 witness: the amended theorem applied at concrete inputs (a cached
path with no stat, and a fresh path that is statted and stored). -/
theorem cached_mtime_amended_witness :
    ((cached_mtime
        { stat := fun _ => none, ls := fun _ => none }
        "a" [("a", { mtimeNs := 1, size := 1, ino := 1 })]).1 =
      Except.ok { mtimeNs := 1, size := 1, ino := 1 } ∧
     (cached_mtime
        { stat := fun _ => none, ls := fun _ => none }
        "a" [("a", { mtimeNs := 1, size := 1, ino := 1 })]).2.1 =
      [("a", { mtimeNs := 1, size := 1, ino := 1 })]) ∧
    ((cached_mtime
        { stat := fun _ =>
            some { kind := FKind.regular, stamp := { mtimeNs := 9, size := 9, ino := 9 } },
          ls := fun _ => none } "b" []).1 =
      Except.ok { mtimeNs := 9, size := 9, ino := 9 } ∧
     assocLookup (cached_mtime
        { stat := fun _ =>
            some { kind := FKind.regular, stamp := { mtimeNs := 9, size := 9, ino := 9 } },
          ls := fun _ => none } "b" []).2.1 "b" =
      some { mtimeNs := 9, size := 9, ino := 9 }) :=
  ⟨(cached_mtime_amended { stat := fun _ => none, ls := fun _ => none } "a"
      [("a", { mtimeNs := 1, size := 1, ino := 1 })]).2.1
      { mtimeNs := 1, size := 1, ino := 1 } rfl,
   (cached_mtime_amended
      { stat := fun _ =>
          some { kind := FKind.regular, stamp := { mtimeNs := 9, size := 9, ino := 9 } },
        ls := fun _ => none } "b" []).2.2.1
      { kind := FKind.regular, stamp := { mtimeNs := 9, size := 9, ino := 9 } } rfl rfl⟩

/-! ## Claim C10: metrics records are cumulative and monotone -/

/-- C10 counterexample.  The claim says the `seq` field of successive flushed
records strictly increases by one per record.  `flush` consumes
`next(_seq)` while building the payload, before the guarded file append, and
a failed append is silently dropped (`except Exception: pass`), so when the
middle of three flushes fails to write, the file holds records with `seq`
1 and 3 — successive records whose sequence numbers differ by two. -/
theorem metrics_seq_gap_cex :
    (runMetrics [MEvent.flush true, MEvent.flush false, MEvent.flush true]).records.map
      (fun r => r.seq) = [1, 3] := by
  rfl

theorem assocLookup_mapUpd {υ : Type} (upd : υ → υ) (s x : String)
    (l : List (String × υ)) :
    assocLookup (l.map (fun p => if p.1 = s then (p.1, upd p.2) else p)) x =
      (assocLookup l x).map (fun c => if x = s then upd c else c) := by
  induction l with
  | nil => simp [assocLookup]
  | cons p t ih =>
    by_cases hx : p.1 = x
    · by_cases hs : p.1 = s
      · have hxs : x = s := by rw [← hx, hs]
        simp [assocLookup, hx, hs, hxs]
      · have hxs : ¬ (x = s) := by rw [← hx]; exact hs
        simp [assocLookup, hx, hs, hxs]
    · by_cases hs : p.1 = s
      · have hsx : ¬ (s = x) := by rw [← hs]; exact hx
        simp [assocLookup, hx, hs, hsx, ih]
      · simp [assocLookup, hx, hs, ih]

theorem lookup_bumpAssoc (upd : Counters → Counters) (s x : String)
    (l : List (String × Counters)) :
    assocLookup (bumpAssoc upd s l) x =
      (assocLookup l x).map (fun c => if x = s then upd c else c) :=
  assocLookup_mapUpd upd s x l

theorem tLe_refl (c : TimeEnt) : tLe c c := ⟨Nat.le_refl _, Nat.le_refl _⟩

theorem tLe_trans {a b c : TimeEnt} (h1 : tLe a b) (h2 : tLe b c) : tLe a c :=
  ⟨Nat.le_trans h1.1 h2.1, Nat.le_trans h1.2 h2.2⟩

theorem lookup_timeAdd (s x : String) (dt : Nat) (l : List (String × TimeEnt)) :
    tLe (getT l x) (getT (timeAdd s dt l) x) := by
  unfold timeAdd
  by_cases hpresent : (assocLookup l s).isSome
  · rw [if_pos hpresent]
    unfold getT
    rw [assocLookup_mapUpd
      (fun c => ({ seconds := c.seconds + dt, count := c.count + 1 } : TimeEnt)) s x l]
    cases hx : assocLookup l x with
    | none => exact tLe_refl _
    | some c =>
      by_cases hxs : x = s
      · simp [hxs]
        exact ⟨Nat.le_add_right _ _, Nat.le_succ _⟩
      · simp [hxs]
        exact tLe_refl _
  · rw [if_neg hpresent]
    unfold getT
    rw [assocLookup_append]
    cases hx : assocLookup l x with
    | some c => exact tLe_refl _
    | none =>
      by_cases hxs : x = s
      · subst hxs
        simp [assocLookup, tLe]
      · have hsx : ¬ (s = x) := fun he => hxs he.symm
        simp [assocLookup, hsx, tLe]

theorem cLe_refl (c : Counters) : cLe c c := ⟨Nat.le_refl _, Nat.le_refl _, Nat.le_refl _⟩

theorem cLe_trans {a b c : Counters} (h1 : cLe a b) (h2 : cLe b c) : cLe a c :=
  ⟨Nat.le_trans h1.1 h2.1, Nat.le_trans h1.2.1 h2.2.1, Nat.le_trans h1.2.2 h2.2.2⟩

theorem recLe_refl (r : MRecord) : recLe r r :=
  ⟨fun _ => cLe_refl _, fun _ => tLe_refl _⟩

theorem recLe_trans {a b c : MRecord} (h1 : recLe a b) (h2 : recLe b c) : recLe a c :=
  ⟨fun s => cLe_trans (h1.1 s) (h2.1 s), fun s => tLe_trans (h1.2 s) (h2.2 s)⟩

theorem mstep_mono (st : MetricsState) (e : MEvent) :
    recLe (curRecord st) (curRecord (mstep st e)) ∧
    st.seqNext ≤ (mstep st e).seqNext ∧
    ((mstep st e).records = st.records ∨
     (mstep st e).records = st.records ++ [curRecord st]) := by
  cases e with
  | hit s =>
    refine ⟨⟨fun x => ?_, fun _ => tLe_refl _⟩, Nat.le_refl _, Or.inl rfl⟩
    show cLe (getC st.totals x)
      (getC (bumpAssoc (fun c => { c with hits := c.hits + 1 }) s st.totals) x)
    unfold getC
    rw [lookup_bumpAssoc]
    cases hx : assocLookup st.totals x with
    | none => exact cLe_refl _
    | some c =>
      by_cases hxs : x = s
      · simp [hxs]
        exact ⟨Nat.le_succ _, Nat.le_refl _, Nat.le_refl _⟩
      · simp [hxs]
        exact cLe_refl _
  | miss s =>
    refine ⟨⟨fun x => ?_, fun _ => tLe_refl _⟩, Nat.le_refl _, Or.inl rfl⟩
    show cLe (getC st.totals x)
      (getC (bumpAssoc (fun c => { c with misses := c.misses + 1 }) s st.totals) x)
    unfold getC
    rw [lookup_bumpAssoc]
    cases hx : assocLookup st.totals x with
    | none => exact cLe_refl _
    | some c =>
      by_cases hxs : x = s
      · simp [hxs]
        exact ⟨Nat.le_refl _, Nat.le_succ _, Nat.le_refl _⟩
      · simp [hxs]
        exact cLe_refl _
  | evict s =>
    refine ⟨⟨fun x => ?_, fun _ => tLe_refl _⟩, Nat.le_refl _, Or.inl rfl⟩
    show cLe (getC st.totals x)
      (getC (bumpAssoc (fun c => { c with evictions := c.evictions + 1 }) s st.totals) x)
    unfold getC
    rw [lookup_bumpAssoc]
    cases hx : assocLookup st.totals x with
    | none => exact cLe_refl _
    | some c =>
      by_cases hxs : x = s
      · simp [hxs]
        exact ⟨Nat.le_refl _, Nat.le_refl _, Nat.le_succ _⟩
      · simp [hxs]
        exact cLe_refl _
  | timeEnd s dt =>
    refine ⟨⟨fun _ => cLe_refl _, fun x => ?_⟩, Nat.le_refl _, Or.inl rfl⟩
    exact lookup_timeAdd s x dt st.times
  | flush ok =>
    refine ⟨recLe_refl _, Nat.le_succ _, ?_⟩
    cases ok with
    | true => exact Or.inr rfl
    | false => exact Or.inl rfl

theorem mstep_seqNext (st : MetricsState) (e : MEvent) :
    (mstep st e).seqNext = st.seqNext ∨
    (mstep st e).seqNext = st.seqNext + 1 := by
  cases e with
  | hit s => exact Or.inl rfl
  | miss s => exact Or.inl rfl
  | evict s => exact Or.inl rfl
  | timeEnd s dt => exact Or.inl rfl
  | flush ok => exact Or.inr rfl

theorem mstep_records_append (st : MetricsState) (e : MEvent)
    (h : (mstep st e).records = st.records ++ [curRecord st]) :
    (mstep st e).seqNext = st.seqNext + 1 := by
  cases e with
  | hit s => simp [mstep] at h
  | miss s => simp [mstep] at h
  | evict s => simp [mstep] at h
  | timeEnd s dt => simp [mstep] at h
  | flush ok => rfl

theorem msInv_step {st : MetricsState} (h : msInv st) (e : MEvent) :
    msInv (mstep st e) := by
  obtain ⟨hrec, hseq, hrecords⟩ := mstep_mono st e
  rcases hrecords with hsame | happ
  · constructor
    · rw [hsame]
      exact h.1
    · intro r hr
      rw [hsame] at hr
      obtain ⟨h1, h2⟩ := h.2 r hr
      exact ⟨recLe_trans h1 hrec, Nat.lt_of_lt_of_le h2 hseq⟩
  · have hnext := mstep_records_append st e happ
    constructor
    · rw [happ, List.chain'_append]
      refine ⟨h.1, List.chain'_singleton _, ?_⟩
      intro x hx y hy
      simp at hy
      have hxmem : x ∈ st.records := by
        cases hlast : st.records.getLast? with
        | none =>
          rw [hlast] at hx
          simp at hx
        | some a =>
          rw [hlast] at hx
          simp at hx
          rw [← hx]
          exact mem_of_getLast_opt st.records a hlast
      obtain ⟨h1, h2⟩ := h.2 x hxmem
      rw [← hy]
      exact ⟨h1, h2⟩
    · intro r hr
      rw [happ] at hr
      rcases List.mem_append.mp hr with hold | hnew
      · obtain ⟨h1, h2⟩ := h.2 r hold
        refine ⟨recLe_trans h1 hrec, ?_⟩
        rw [hnext]
        exact Nat.lt_succ_of_lt h2
      · simp at hnew
        rw [hnew]
        refine ⟨hrec, ?_⟩
        rw [hnext]
        exact Nat.lt_succ_self _

theorem msInv_run (evs : List MEvent) : ∀ st, msInv st → msInv (evs.foldl mstep st) := by
  induction evs with
  | nil => intro st h; exact h
  | cons e rest ih =>
    intro st h
    exact ih (mstep st e) (msInv_step h e)

/-- C10 (amended): within one process the metrics records are cumulative and
monotone — every `hit`/`miss`/`evict`/`time_end` only increases its bucket
and `flush` appends the current totals without resetting — so along any
serialised trace of metrics operations, successive flushed records have
componentwise nondecreasing `hits`, `misses`, `evictions`, `seconds` and
`count` in every section, and strictly increasing `seq`; but because
`next(_seq)` is consumed even when the guarded file write fails and is
dropped, `seq` advances by exactly one per flush attempt, not per surviving
record. -/
theorem metrics_records_monotone (evs : List MEvent) :
    List.Chain' recStep (runMetrics evs).records := by
  have hinit : msInv minit := by
    constructor
    · exact List.chain'_nil
    · intro r hr
      simp [minit] at hr
  exact (msInv_run evs minit hinit).1
